import Mathlib

/-!
# Schema default injection and config-docs generation

A shallow embedding of `setDefaultVals` from `pkg/jsonschema/generate.go` and
from `scripts/jsonschema/main.go`, and of the tree builder, the tree
serialization and the markdown splicer from
`pkg/jsonschema/generate_config_docs.go`.

Go code that mutates its argument in place is embedded as explicit state
passing.  A Go panic does not roll the mutations back, so a run is recorded as
`Run.returned s` or `Run.panicked s`, where `s` is the state reached.
-/

namespace JsonSchema

open scoped List

/-! ## Outcomes of a run -/

/-- The outcome of running a Go function over a mutable state `σ`: it returns
normally, or it panics; either way the state holds the mutations made so far. -/
inductive Run (σ : Type) where
  | returned (state : σ)
  | panicked (state : σ)

/-- The state reached by a run, whether it returned or panicked. -/
def Run.state {σ : Type} : Run σ → σ
  | .returned s => s
  | .panicked s => s

/-- Whether the run ended in a panic. -/
def Run.isPanic {σ : Type} : Run σ → Bool
  | .returned _ => false
  | .panicked _ => true

/-! ## Go values as `reflect` sees them -/

/-- The kinds of `reflect.Kind` that the walker can tell apart.  The sized
integer kinds are folded into `Int` and `Uint`, the float and complex kinds
into `Float`: the walker treats all of them alike (the `default:` case). -/
inductive Kind where
  | Invalid | Bool | Int | Uint | Float | String | Array
  | Chan | Func | Interface | Map | Ptr | Slice | Struct
  deriving DecidableEq, Repr

/-- The part of `reflect.StructField` the walker depends on.  `PkgPath` is
empty exactly for exported fields. -/
structure StructField where
  Name : String
  PkgPath : String
  deriving DecidableEq, Repr

/-- A Go value.  For the reference-like kinds `none` is the nil value.
`iface` is a slot of interface type together with the dynamic value it holds;
`struct` carries the name of its type (`reflect.Type.Name`) and its fields in
declaration order. -/
inductive Value where
  | bool (b : Bool)
  | int (n : Int)
  | uint (n : Nat)
  | float (bits : Nat)
  | string (s : String)
  | array (elems : List Value)
  | chan (handle : Option Nat)
  | func (handle : Option Nat)
  | map (entries : Option (List (Value × Value)))
  | slice (elems : Option (List Value))
  | ptr (elem : Option Value)
  | iface (dyn : Option Value)
  | struct (typeName : String) (fields : List (StructField × Value))

/-- Go's `interface{}`: `none` is the nil interface. -/
abbrev Any := Option Value

/-- The embedding of `reflect.Value.Kind`. -/
def Value.Kind : Value → Kind
  | .bool _ => .Bool
  | .int _ => .Int
  | .uint _ => .Uint
  | .float _ => .Float
  | .string _ => .String
  | .array _ => .Array
  | .chan _ => .Chan
  | .func _ => .Func
  | .map _ => .Map
  | .slice _ => .Slice
  | .ptr _ => .Ptr
  | .iface _ => .Interface
  | .struct _ _ => .Struct

/-- The embedding of `reflect.Value.IsNil`; `none` is the panic that reflect
raises for a kind that cannot be nil. -/
def Value.IsNil : Value → Option Bool
  | .chan h => some h.isNone
  | .func h => some h.isNone
  | .map m => some m.isNone
  | .slice s => some s.isNone
  | .ptr p => some p.isNone
  | .iface d => some d.isNone
  | _ => none

/-- The embedding of `reflect.Value.Elem` on a pointer or an interface.  The
result `none` is the zero `reflect.Value` (obtained from a nil pointer or a nil
interface, and standing in for the panic on any other kind: the walker calls
`Elem` on pointers and interfaces only). -/
def Value.Elem : Value → Option Value
  | .ptr e => e
  | .iface d => d
  | _ => none

/-- The embedding of `reflect.Value.Interface` on the value of a struct field:
the outer `none` is the panic reflect raises for a value obtained from an
unexported field; a slot of interface type yields the value it holds. -/
def Value.Interface (f : StructField) (v : Value) : Option Any :=
  if f.PkgPath = "" then
    match v with
    | .iface dyn => some dyn
    | w => some (some w)
  else none

/-- Embedding of `isStruct`: `reflect.TypeOf(v).Kind() == reflect.Struct`.
`reflect.TypeOf(nil)` is the nil `Type`, and calling `Kind` on it panics
(`none`). -/
def isStruct : Any → Option Bool
  | none => none
  | some (.struct _ _) => some true
  | some _ => some false

/-! ## The schema object model -/

/-- A property node of the schema (`*jsonschema.Schema` under `Properties`). -/
structure Property where
  Description : String
  Type_ : String
  Default : Any

/-- The schema of one struct type (`*jsonschema.Schema` under `Definitions`):
its ordered properties and the mapping from Go field name to property name.
Pointers are taken to be non-nil and unshared, as the reflector builds them. -/
structure Definition where
  Properties : List (String × Property)
  OriginalPropertiesMapping : List (String × String)

/-- The root schema; `Definitions` maps a type name to its definition. -/
structure Schema where
  Definitions : List (String × Definition)

/-- Apply `g` to the value stored under the first occurrence of key `k`, the
functional reading of mutating the object a map lookup returned. -/
def modifyFirst {β : Type} (k : String) (g : β → β) : List (String × β) → List (String × β)
  | [] => []
  | (k', b) :: rest => if k' = k then (k', g b) :: rest else (k', b) :: modifyFirst k g rest

/-- The tail of one loop iteration of `setDefaultVals` (generate.go, lines
72-91): look up the definition of the enclosing type, the property name of the
field and the property; set the property's default unless it has one. -/
def setDefault (parentKey key : String) (value : Any) (schema : Schema) : Schema :=
  match schema.Definitions.lookup parentKey with
  | none => schema
  | some definition =>
    match definition.OriginalPropertiesMapping.lookup key with
    | none => schema
    | some propertyName =>
      match definition.Properties.lookup propertyName with
      | none => schema
      | some property =>
        match property.Default with
        | some _ => schema
        | none =>
          { schema with
            Definitions := modifyFirst parentKey
              (fun d => { d with
                Properties := modifyFirst propertyName
                  (fun p => { p with Default := value }) d.Properties })
              schema.Definitions }

/-- The nil test of `setDefaultVals` (generate.go, lines 61-66): `isNil`
starts out `true` and is reassigned only for the six reference-like kinds.
`none` is a panic of `IsNil`. -/
def isNilSwitch (value : Value) : Option Bool :=
  match value.Kind with
  | .Chan | .Func | .Map | .Ptr | .Interface | .Slice => value.IsNil
  | _ => some true

/-- One loop iteration of `setDefaultVals` for a field that is not a struct
(generate.go, lines 59-91), given `value.Interface()`. -/
def visitLeaf (parentKey : String) (f : StructField) (value : Value) (asAny : Any)
    (schema : Schema) : Run Schema :=
  match isNilSwitch value with
  | none => .panicked schema
  | some true => .returned schema
  | some false => .returned (setDefault parentKey f.Name asAny schema)

mutual
/-- One loop iteration of `setDefaultVals` (generate.go, lines 54-91) on the
field `f` holding `value`.  The first two cases are the fields for which
`isStruct(value.Interface())` holds (a struct, or an interface slot holding a
struct), where the walker recurses with the struct's type name as the new
parent key; an unexported field makes `value.Interface()` panic.  In the last
case `isStruct` is false or panics.  The theorem `visitField_unfold` restates
the iteration in the order of the source. -/
def visitField (parentKey : String) (f : StructField) : Value → Schema → Run Schema
  | .struct typeName fields, schema =>
    if f.PkgPath = "" then fieldLoop typeName fields schema else .panicked schema
  | .iface (some (.struct typeName fields)), schema =>
    if f.PkgPath = "" then fieldLoop typeName fields schema else .panicked schema
  | value, schema =>
    match value.Interface f with
    | none => .panicked schema
    | some asAny =>
      match isStruct asAny with
      | none => .panicked schema
      | some _ => visitLeaf parentKey f value asAny schema
termination_by structural v => v
/-- The loop of `setDefaultVals` (generate.go, line 53) over the fields of a
struct whose type is named `parentKey`. -/
def fieldLoop (parentKey : String) : List (StructField × Value) → Schema → Run Schema
  | [], schema => .returned schema
  | (f, value) :: rest, schema =>
    match visitField parentKey f value schema with
    | .returned schema1 => fieldLoop parentKey rest schema1
    | .panicked schema1 => .panicked schema1
termination_by structural fields => fields
end

/-- The embedding of `setDefaultVals` (generate.go, lines 44-93).  `defaults`
is dereferenced once if it is a pointer or an interface; `v.Type()` panics on
the zero value and `t.NumField()` panics unless the type is a struct. -/
def setDefaultVals (defaults : Any) (schema : Schema) : Run Schema :=
  match defaults with
  | none => .panicked schema
  | some d =>
    let v := if d.Kind = .Ptr ∨ d.Kind = .Interface then d.Elem else some d
    match v with
    | some (.struct typeName fields) => fieldLoop typeName fields schema
    | _ => .panicked schema

/-! ## The walk as a list of attempted assignments -/

/-- A pending assignment
`Definitions[parentKey].Properties[mapping[key]].Default = value`, attempted by
the walker for a field it did not skip. -/
structure Write where
  parentKey : String
  key : String
  value : Value

/-- Carry out one pending assignment (it is dropped on a lookup miss or when
the property has a default). -/
def Write.apply (s : Schema) (w : Write) : Schema :=
  setDefault w.parentKey w.key (some w.value) s

mutual
/-- The assignments one loop iteration attempts, in order, and whether the
iteration panics after them.  Neither depends on the schema. -/
def visitTrace (parentKey : String) (f : StructField) : Value → List Write × Bool
  | .struct typeName fields =>
    if f.PkgPath = "" then loopTrace typeName fields else ([], true)
  | .iface (some (.struct typeName fields)) =>
    if f.PkgPath = "" then loopTrace typeName fields else ([], true)
  | value =>
    match value.Interface f with
    | none => ([], true)
    | some none => ([], true)
    | some (some x) =>
      match isNilSwitch value with
      | none => ([], true)
      | some true => ([], false)
      | some false => ([⟨parentKey, f.Name, x⟩], false)
termination_by structural v => v
/-- The assignments the field loop attempts, in order, and whether it panics
after them. -/
def loopTrace (parentKey : String) : List (StructField × Value) → List Write × Bool
  | [] => ([], false)
  | (f, value) :: rest =>
    match visitTrace parentKey f value with
    | (ws, true) => (ws, true)
    | (ws, false) => ((ws ++ (loopTrace parentKey rest).1), (loopTrace parentKey rest).2)
termination_by structural fields => fields
end

/-- The trace of a whole call of `setDefaultVals`. -/
def callTrace (defaults : Any) : List Write × Bool :=
  match defaults with
  | none => ([], true)
  | some d =>
    match (if d.Kind = .Ptr ∨ d.Kind = .Interface then d.Elem else some d) with
    | some (.struct typeName fields) => loopTrace typeName fields
    | _ => ([], true)

/-- Replay a trace on a schema. -/
def replay (t : List Write × Bool) (s : Schema) : Run Schema :=
  if t.2 then .panicked (t.1.foldl Write.apply s) else .returned (t.1.foldl Write.apply s)

/-! ## Keyed lists under in-place modification -/

/-- Two keyed lists with the same keys in the same order whose values are
related by `R` position by position. -/
def KeyRel {β : Type} (R : β → β → Prop) (l l' : List (String × β)) : Prop :=
  List.Forall₂ (fun a b => a.1 = b.1 ∧ R a.2 b.2) l l'

/-! ## What the walker may change in a schema -/

/-- The property `p'` is `p` with, at most, its unset default filled in. -/
def Property.Fills (p p' : Property) : Prop :=
  p'.Description = p.Description ∧ p'.Type_ = p.Type_ ∧
    (p.Default.isSome → p'.Default = p.Default)

/-- The definition `d'` is `d` with, at most, unset defaults filled in. -/
def Definition.Fills (d d' : Definition) : Prop :=
  d'.OriginalPropertiesMapping = d.OriginalPropertiesMapping ∧
    KeyRel Property.Fills d.Properties d'.Properties

/-- The schema `s'` is `s` with, at most, unset defaults filled in. -/
def Schema.Fills (s s' : Schema) : Prop :=
  KeyRel Definition.Fills s.Definitions s'.Definitions

/-- The assignment for field `key` of type `parentKey` cannot change `s`: a
lookup misses or the property already has a default. -/
def Blocked (parentKey key : String) (s : Schema) : Prop :=
  match s.Definitions.lookup parentKey with
  | none => True
  | some definition =>
    match definition.OriginalPropertiesMapping.lookup key with
    | none => True
    | some propertyName =>
      match definition.Properties.lookup propertyName with
      | none => True
      | some property => property.Default.isSome = true

/-! ## Instances the walk can finish on -/

mutual
/-- The walker gets through the field without panicking: the field is
exported, it is not a nil interface, and the same holds inside a struct the
walker descends into. -/
def fieldWalkable (f : StructField) : Value → Bool
  | .struct _ fields => decide (f.PkgPath = "") && fieldsWalkable fields
  | .iface (some (.struct _ fields)) => decide (f.PkgPath = "") && fieldsWalkable fields
  | .iface none => false
  | _ => decide (f.PkgPath = "")
termination_by structural v => v
/-- Every field of the list is walkable. -/
def fieldsWalkable : List (StructField × Value) → Bool
  | [] => true
  | (f, value) :: rest => fieldWalkable f value && fieldsWalkable rest
termination_by structural fields => fields
end

/-- A lookup of the walker misses for field `key` of type `parentKey`: there
is no definition, no entry for the field in `OriginalPropertiesMapping`, or no
property under the mapped name. -/
def LookupMiss (parentKey key : String) (s : Schema) : Prop :=
  s.Definitions.lookup parentKey = none ∨
    ∃ definition, s.Definitions.lookup parentKey = some definition ∧
      (definition.OriginalPropertiesMapping.lookup key = none ∨
        ∃ propertyName, definition.OriginalPropertiesMapping.lookup key = some propertyName ∧
          definition.Properties.lookup propertyName = none)

/-! ## Sample inputs -/

/-- An exported field named `name`. -/
def exported (name : String) : StructField := ⟨name, ""⟩

/-- A property without description and without default. -/
def bareProperty (type : String) : Property := ⟨"", type, none⟩

/-- The instance `Config{Count: 0, Enabled: false, Title: ""}`. -/
def zeroConfig : Value :=
  .struct "Config"
    [(exported "Count", .int 0), (exported "Enabled", .bool false),
      (exported "Title", .string "")]

/-- A schema for `zeroConfig`: every field has a property, none has a default. -/
def zeroConfigSchema : Schema :=
  ⟨[("Config",
      ⟨[("count", bareProperty "integer"), ("enabled", bareProperty "boolean"),
          ("title", bareProperty "string")],
        [("Count", "count"), ("Enabled", "enabled"), ("Title", "title")]⟩)]⟩

/-- The instance `Config{Hook: nil, Names: []string{"a"}}`, where `Hook` has
interface type. -/
def hookConfig : Value :=
  .struct "Config"
    [(exported "Hook", .iface none), (exported "Names", .slice (some [.string "a"]))]

/-- The instance `hookConfig` without its `Hook` field. -/
def namesConfig : Value :=
  .struct "Config" [(exported "Names", .slice (some [.string "a"]))]

/-- A schema for `hookConfig`: both fields have a property without default. -/
def hookSchema : Schema :=
  ⟨[("Config",
      ⟨[("hook", bareProperty ""), ("names", bareProperty "array")],
        [("Hook", "hook"), ("Names", "names")]⟩)]⟩

/-- The schema `hookSchema` after `names` received the default `["a"]`. -/
def hookSchemaNames : Schema :=
  ⟨[("Config",
      ⟨[("hook", bareProperty ""),
          ("names", ⟨"", "array", some (.slice (some [.string "a"]))⟩)],
        [("Hook", "hook"), ("Names", "names")]⟩)]⟩

/-- The instance `Config{Hook: nil, Gui: gui.Config{Hook: []string{"a"}}}`: the
type of the field `Gui` is also named `Config`, and both types have a field
`Hook`, the outer one of interface type. -/
def nestedHookConfig : Value :=
  .struct "Config"
    [(exported "Hook", .iface none),
      (exported "Gui", .struct "Config" [(exported "Hook", .slice (some [.string "a"]))])]

/-- The instance `nestedHookConfig` without its outer `Hook` field. -/
def nestedConfig : Value :=
  .struct "Config"
    [(exported "Gui", .struct "Config" [(exported "Hook", .slice (some [.string "a"]))])]

/-- The schema `hookSchema` after `hook` received the default `["a"]`. -/
def hookSchemaHook : Schema :=
  ⟨[("Config",
      ⟨[("hook", ⟨"", "", some (.slice (some [.string "a"]))⟩),
          ("names", bareProperty "array")],
        [("Hook", "hook"), ("Names", "names")]⟩)]⟩

/-- The instance `Config{secret: []string{}}` with an unexported field
declared in package `config`. -/
def secretConfig : Value :=
  .struct "Config" [(⟨"secret", "config"⟩, .slice (some []))]

/-- A schema whose property `names` already has the default `"keep"`. -/
def keepSchema : Schema :=
  ⟨[("Config",
      ⟨[("names", ⟨"", "array", some (.string "keep")⟩)], [("Names", "names")]⟩)]⟩

/-! ## The documentation tree (generate_config_docs.go) -/

/-- A value decoded from JSON into an `orderedmap.OrderedMap`: `null` is Go's
nil interface, a number is kept as its literal, and an object is the ordered map
given by its entries in key order (the map keeps its keys free of duplicates). -/
inductive JSON where
  | null
  | bool (b : Bool)
  | number (literal : String)
  | string (s : String)
  | array (elems : List JSON)
  | object (entries : List (String × JSON))

/-- The embedding of `Node`.  `Default` is a Go `any`; `JSON.null` is nil. -/
inductive Node where
  | mk (Name Description : String) (Default : JSON) (Children : List Node)

/-- The field `Name` of a node. -/
def Node.Name : Node → String
  | .mk name _ _ _ => name

/-- The field `Description` of a node. -/
def Node.Description : Node → String
  | .mk _ description _ _ => description

/-- The field `Default` of a node. -/
def Node.Default : Node → JSON
  | .mk _ _ default _ => default

/-- The field `Children` of a node. -/
def Node.Children : Node → List Node
  | .mk _ _ _ children => children

/-- The statement `parent.Children = append(parent.Children, child)`. -/
def Node.appendChild : Node → Node → Node
  | .mk name description default children, child =>
    .mk name description default (children ++ [child])

/-- The embedding of `getDescription`; `none` is the panic of the type
assertion `description.(string)`. -/
def getDescription (v : List (String × JSON)) : Option String :=
  match v.lookup "description" with
  | none => some ""
  | some (.string description) => some description
  | some _ => none

/-- The embedding of `getDefault`.  The outer `none` is the panic of the type
assertion `dataType.(string)`; the inner `none` is the returned error, the
inner `some` the returned default (with a nil error). -/
def getDefault (v : List (String × JSON)) : Option (Option JSON) :=
  match v.lookup "default" with
  | some defaultValue => some (some defaultValue)
  | none =>
    match v.lookup "type" with
    | none => some none
    | some (.string dataTypeString) =>
      if dataTypeString = "string" then some (some (.string "")) else some none
    | some _ => none

/-- Lines 101-104 of `parseNode`: when `getDefault` returned no error, a leaf
is appended to the parent's children. -/
def appendLeaf (parent : Node) (name description : String) : Option JSON → Node
  | some defaultValue => parent.appendChild (.mk name description defaultValue [])
  | none => parent

mutual
/-- The type assertion `value.(orderedmap.OrderedMap)` of a caller (lines 119
and 200) followed by the body of `parseNode` (lines 99-104); the rest of the
body is `parseBranch`.  A failed assertion panics. -/
def parseValue (parent : Node) (name : String) : JSON → Run Node
  | .object value =>
    match getDescription value with
    | none => .panicked parent
    | some description =>
      match getDefault value with
      | none => .panicked parent
      | some result =>
        parseBranch (appendLeaf parent name description result) name description value
  | _ => .panicked parent
termination_by structural v => v
/-- Lines 106-121 of `parseNode`: `value.Get("properties")` as a scan for the
first entry with that key; without one the function returns.  Otherwise the
entry must be an ordered map; the branch node is appended to the parent and
filled by the loop over its properties. -/
def parseBranch (parent : Node) (name description : String) :
    List (String × JSON) → Run Node
  | [] => .returned parent
  | (key, properties) :: rest =>
    if key = "properties" then
      match properties with
      | .object orderedProperties =>
        match parseProperties (.mk name description .null []) orderedProperties with
        | .returned node => .returned (parent.appendChild node)
        | .panicked node => .panicked (parent.appendChild node)
      | _ => .panicked parent
    else parseBranch parent name description rest
termination_by structural entries => entries
/-- The loop `for _, name := range keys` (lines 116-121 and 198-202) over an
ordered map: each key with the value stored under it, in key order. -/
def parseProperties (node : Node) : List (String × JSON) → Run Node
  | [] => .returned node
  | (name, value) :: rest =>
    match parseValue node name value with
    | .returned node1 => parseProperties node1 rest
    | .panicked node1 => .panicked node1
termination_by structural entries => entries
end

/-- The embedding of `parseNode` (lines 98-122) for an ordered map `value`. -/
def parseNode (parent : Node) (name : String) (value : List (String × JSON)) : Run Node :=
  parseValue parent name (.object value)

/-- The tree-building part of `GenerateConfigDocs` (lines 191-202) on the
decoded schema: the root node after the loop over the root properties. -/
def GenerateConfigDocs_rootNode (schema : List (String × JSON)) : Run Node :=
  match schema.lookup "properties" with
  | some (.object orderedRoot) => parseProperties (.mk "" "" .null []) orderedRoot
  | _ => .panicked (.mk "" "" .null [])

/-- The renderable default of a property, in the words of the specification:
the explicit default if the property carries one; else the empty string if the
declared type is "string"; otherwise there is none. -/
def renderableDefault (value : List (String × JSON)) : Option JSON :=
  match value.lookup "default" with
  | some explicit => some explicit
  | none =>
    match value.lookup "type" with
    | some (.string declared) => if declared = "string" then some (.string "") else none
    | _ => none

/-- The description of a property, in the words of the specification: its
`description` entry, or the empty string when it has none. -/
def describedAs (value : List (String × JSON)) : String :=
  match value.lookup "description" with
  | some (.string text) => text
  | _ => ""

/-- The nodes the branch step of `parseNode` appends, seen on a parent
without children. -/
def branchNodes (name description : String) (value : List (String × JSON)) : List Node :=
  (parseBranch (.mk "" "" .null []) name description value).state.Children

/-- The keys of an ordered map, in order (`OrderedMap.Keys`). -/
def keysOf (entries : List (String × JSON)) : List String :=
  entries.map Prod.fst

/-- The nested property definitions of a property, empty when there are none. -/
def nestedProperties : JSON → List (String × JSON)
  | .object value =>
    match value.lookup "properties" with
    | some (.object sub) => sub
    | _ => []
  | _ => []

/-- The nested property definitions of the property `name` of `props`, empty
when there are none. -/
def childProperties (props : List (String × JSON)) (name : String) : List (String × JSON) :=
  match props.lookup name with
  | some value => nestedProperties value
  | none => []

/-- Every key twice, in key order: room for the leaf and for the branch of
each property. -/
def doubled : List String → List String
  | [] => []
  | k :: ks => k :: k :: doubled ks

/-- The names of sibling nodes follow the key order `keys`: every name is a
key, and whenever `k1` comes before `k2` among the keys, no node named `k2`
comes before a node named `k1`. -/
def LevelOrdered (keys names : List String) : Prop :=
  (∀ n ∈ names, n ∈ keys) ∧ ∀ k1 k2, [k1, k2] <+ keys → ¬ [k2, k1] <+ names

mutual
/-- Below the node, at every depth, children follow the order of the nested
properties of the property the node was built from (looked up in `props`). -/
def Node.OrderedBelow (props : List (String × JSON)) : Node → Prop
  | .mk name _ _ children =>
    LevelOrdered (keysOf (childProperties props name)) (children.map Node.Name) ∧
      Node.AllOrderedBelow (childProperties props name) children
termination_by structural n => n
/-- Every node of the list is ordered below. -/
def Node.AllOrderedBelow (props : List (String × JSON)) : List Node → Prop
  | [] => True
  | child :: rest => Node.OrderedBelow props child ∧ Node.AllOrderedBelow props rest
termination_by structural nodes => nodes
end

/-- The children built from the ordered map `props` are in declaration order
at every nesting depth. -/
def TreeOrdered (props : List (String × JSON)) (children : List Node) : Prop :=
  LevelOrdered (keysOf props) (children.map Node.Name) ∧ Node.AllOrderedBelow props children

mutual
/-- Every ordered map inside the value has pairwise different keys, the
invariant `orderedmap.OrderedMap` maintains. -/
def JSON.UniqueKeys : JSON → Prop
  | .object entries => (entries.map Prod.fst).Nodup ∧ JSON.EntriesUnique entries
  | .array elems => JSON.ElemsUnique elems
  | _ => True
termination_by structural v => v
/-- Every value of the entries has unique keys. -/
def JSON.EntriesUnique : List (String × JSON) → Prop
  | [] => True
  | (_, value) :: rest => JSON.UniqueKeys value ∧ JSON.EntriesUnique rest
termination_by structural entries => entries
/-- Every element has unique keys. -/
def JSON.ElemsUnique : List JSON → Prop
  | [] => True
  | value :: rest => JSON.UniqueKeys value ∧ JSON.ElemsUnique rest
termination_by structural elems => elems
end

/-- The node with `added` appended to its children. -/
def Node.extend : Node → List Node → Node
  | .mk name description default children, added =>
    .mk name description default (children ++ added)

/-- A decoded schema with the properties `gui` (nesting `theme` and `border`)
and `git`. -/
def sampleRoot : List (String × JSON) :=
  [("gui", .object [("description", .string "Config relating to the UI"),
      ("properties", .object
        [("theme", .object [("type", .string "string")]),
          ("border", .object [("type", .string "string"), ("default", .string "rounded")])])]),
    ("git", .object [("type", .string "object"), ("default", .null)])]

/-- The schema document around `sampleRoot`. -/
def sampleSchema : List (String × JSON) :=
  [("type", .string "object"), ("properties", .object sampleRoot)]

/-! ## Splicing into the documentation file (generate_config_docs.go) -/

/-- The bytes of an ASCII string literal, one number per byte. -/
def bytesOf (s : String) : List Nat :=
  s.toList.map Char.toNat

/-- Embedding of `strings.Split(s, "\n")`: the pieces between line feeds; an
input without line feed is one piece. -/
def splitLines : List Nat → List (List Nat)
  | [] => [[]]
  | b :: rest =>
    if b = 10 then [] :: splitLines rest
    else
      match splitLines rest with
      | [] => [[b]]
      | line :: lines => (b :: line) :: lines

/-- Drop leading white space: the UTF-8 encodings of the code points for
which `unicode.IsSpace` holds. -/
def trimLeft : List Nat → List Nat
  | 9 :: s | 10 :: s | 11 :: s | 12 :: s | 13 :: s | 32 :: s => trimLeft s
  | 0xC2 :: 0x85 :: s | 0xC2 :: 0xA0 :: s => trimLeft s
  | 0xE1 :: 0x9A :: 0x80 :: s => trimLeft s
  | 0xE2 :: 0x80 :: 0x80 :: s | 0xE2 :: 0x80 :: 0x81 :: s | 0xE2 :: 0x80 :: 0x82 :: s
  | 0xE2 :: 0x80 :: 0x83 :: s | 0xE2 :: 0x80 :: 0x84 :: s | 0xE2 :: 0x80 :: 0x85 :: s
  | 0xE2 :: 0x80 :: 0x86 :: s | 0xE2 :: 0x80 :: 0x87 :: s | 0xE2 :: 0x80 :: 0x88 :: s
  | 0xE2 :: 0x80 :: 0x89 :: s | 0xE2 :: 0x80 :: 0x8A :: s => trimLeft s
  | 0xE2 :: 0x80 :: 0xA8 :: s | 0xE2 :: 0x80 :: 0xA9 :: s | 0xE2 :: 0x80 :: 0xAF :: s =>
    trimLeft s
  | 0xE2 :: 0x81 :: 0x9F :: s => trimLeft s
  | 0xE3 :: 0x80 :: 0x80 :: s => trimLeft s
  | s => s

/-- Drop trailing white space from a reversed byte string. -/
def trimLeftReversed : List Nat → List Nat
  | 9 :: s | 10 :: s | 11 :: s | 12 :: s | 13 :: s | 32 :: s => trimLeftReversed s
  | 0x85 :: 0xC2 :: s | 0xA0 :: 0xC2 :: s => trimLeftReversed s
  | 0x80 :: 0x9A :: 0xE1 :: s => trimLeftReversed s
  | 0x80 :: 0x80 :: 0xE2 :: s | 0x81 :: 0x80 :: 0xE2 :: s | 0x82 :: 0x80 :: 0xE2 :: s
  | 0x83 :: 0x80 :: 0xE2 :: s | 0x84 :: 0x80 :: 0xE2 :: s | 0x85 :: 0x80 :: 0xE2 :: s
  | 0x86 :: 0x80 :: 0xE2 :: s | 0x87 :: 0x80 :: 0xE2 :: s | 0x88 :: 0x80 :: 0xE2 :: s
  | 0x89 :: 0x80 :: 0xE2 :: s | 0x8A :: 0x80 :: 0xE2 :: s => trimLeftReversed s
  | 0xA8 :: 0x80 :: 0xE2 :: s | 0xA9 :: 0x80 :: 0xE2 :: s | 0xAF :: 0x80 :: 0xE2 :: s =>
    trimLeftReversed s
  | 0x9F :: 0x81 :: 0xE2 :: s => trimLeftReversed s
  | 0x80 :: 0x80 :: 0xE3 :: s => trimLeftReversed s
  | s => s

/-- Embedding of `strings.TrimSpace` on the bytes of a string. -/
def TrimSpace (s : List Nat) : List Nat :=
  (trimLeftReversed (trimLeft s).reverse).reverse

/-- Lines 126-138 of `writeToConfigDocs`: drop the lines that trim to `---`,
write every kept line followed by a line feed, and cut the last byte off.
The result `none` is the panic of `config[:len(config)-1]` on an empty
`config`. -/
def stripSeparators (buffer : List Nat) : Option (List Nat) :=
  let lines := splitLines buffer
  let newBuffer := (lines.filter (fun line => TrimSpace line != bytesOf "---")).foldl
    (fun acc line => acc ++ (line ++ bytesOf "\n")) []
  if newBuffer.length = 0 then none else some (newBuffer.take (newBuffer.length - 1))

/-- Embedding of `bytes.Index(s, sep)`: the index of the first occurrence of
`sep` in `s`; `none` stands for `-1`. -/
def Index : List Nat → List Nat → Option Nat
  | [], sep => if sep.isPrefixOf [] then some 0 else none
  | b :: s, sep => if sep.isPrefixOf (b :: s) then some 0 else (Index s sep).map (· + 1)

/-- What a call of `writeToConfigDocs` does to the outside: it panics, it
prints a message and returns without writing, or it writes the file. -/
inductive Effect where
  | panic
  | print (message : String)
  | write (content : List Nat)
  deriving DecidableEq

/-- The content of `docs/Config.md` after the call; `none` is an unreadable
file.  A write is taken to succeed. -/
def fileAfter (file : Option (List Nat)) : Effect → Option (List Nat)
  | .write content => some content
  | _ => file

/-- Lines 147-170 of `writeToConfigDocs`: locate the three markers in
`markdown` and build the new content around `config`. -/
def splice (config markdown : List Nat) : Effect :=
  match Index markdown (bytesOf "## Default") with
  | none => .print "## Default section not found"
  | some defaultSectionIndex =>
    match Index (markdown.drop defaultSectionIndex) (bytesOf "```yaml") with
    | none => .print "```yaml code block not found after ## Default"
    | some found =>
      let startCodeBlockIndex := found + defaultSectionIndex
      match Index (markdown.drop (startCodeBlockIndex + (bytesOf "```yaml").length))
          (bytesOf "```") with
      | none => .print "Closing ``` not found for code block"
      | some foundEnd =>
        let endCodeBlockIndex := foundEnd + (startCodeBlockIndex + (bytesOf "```yaml").length)
        .write (markdown.take (startCodeBlockIndex + (bytesOf "```yaml\n").length)
          ++ config ++ markdown.drop endCodeBlockIndex)

/-- The embedding of `writeToConfigDocs` (lines 124-176); `buffer` is the
serialized block and `file` the content of `docs/Config.md`, `none` when it
cannot be read. -/
def writeToConfigDocs (buffer : List Nat) (file : Option (List Nat)) : Effect :=
  match stripSeparators buffer with
  | none => .panic
  | some config =>
    match file with
    | none => .print "Error reading Config.md file"
    | some markdown => splice config markdown

/-- The pattern `sep` occurs in `s` at index `i` and nowhere before. -/
def FirstAt (s sep : List Nat) (i : Nat) : Prop :=
  sep <+: s.drop i ∧ i + sep.length ≤ s.length ∧ ∀ j < i, ¬ sep <+: s.drop j

/-! ## The standalone script (scripts/jsonschema/main.go) -/

/-- The tail of one loop iteration of the script's `setDefaultVals` (main.go,
lines 65-75): the property is looked up under the Go field name itself.  On a
miss `Get` returns a nil property with `ok == false`, the guard
`ok && property == nil` does not fire, and the assignment to
`property.Default` dereferences nil: a panic.  A property that is found is
assigned to, whether it has a default or not.  (Stored properties are non-nil,
so the guard never fires for them.) -/
def Main.setDefault (parentKey key : String) (value : Any) (schema : Schema) : Run Schema :=
  match schema.Definitions.lookup parentKey with
  | none => .returned schema
  | some definition =>
    match definition.Properties.lookup key with
    | none => .panicked schema
    | some _ =>
      .returned { schema with
        Definitions := modifyFirst parentKey
          (fun d => { d with
            Properties := modifyFirst key (fun p => { p with Default := value }) d.Properties })
          schema.Definitions }

/-- One loop iteration of the script's `setDefaultVals` for a field that is
not a struct (main.go, lines 52-75), given `value.Interface()`. -/
def Main.visitLeaf (parentKey : String) (f : StructField) (value : Value) (asAny : Any)
    (schema : Schema) : Run Schema :=
  match isNilSwitch value with
  | none => .panicked schema
  | some true => .returned schema
  | some false => Main.setDefault parentKey f.Name asAny schema

mutual
/-- One loop iteration of the script's `setDefaultVals` (main.go, lines 47-75);
the cases are those of `visitField`. -/
def Main.visitField (parentKey : String) (f : StructField) : Value → Schema → Run Schema
  | .struct typeName fields, schema =>
    if f.PkgPath = "" then Main.fieldLoop typeName fields schema else .panicked schema
  | .iface (some (.struct typeName fields)), schema =>
    if f.PkgPath = "" then Main.fieldLoop typeName fields schema else .panicked schema
  | value, schema =>
    match value.Interface f with
    | none => .panicked schema
    | some asAny =>
      match isStruct asAny with
      | none => .panicked schema
      | some _ => Main.visitLeaf parentKey f value asAny schema
termination_by structural v => v
/-- The loop of the script's `setDefaultVals` (main.go, line 46). -/
def Main.fieldLoop (parentKey : String) : List (StructField × Value) → Schema → Run Schema
  | [], schema => .returned schema
  | (f, value) :: rest, schema =>
    match Main.visitField parentKey f value schema with
    | .returned schema1 => Main.fieldLoop parentKey rest schema1
    | .panicked schema1 => .panicked schema1
termination_by structural fields => fields
end

/-- The embedding of the script's `setDefaultVals` (main.go, lines 37-77). -/
def Main.setDefaultVals (defaults : Any) (schema : Schema) : Run Schema :=
  match defaults with
  | none => .panicked schema
  | some d =>
    let v := if d.Kind = .Ptr ∨ d.Kind = .Interface then d.Elem else some d
    match v with
    | some (.struct typeName fields) => Main.fieldLoop typeName fields schema
    | _ => .panicked schema

/-- A schema for `namesConfig` as the script expects it: the property is
stored under the Go field name `Names`. -/
def namesFieldSchema : Schema :=
  ⟨[("Config", ⟨[("Names", bareProperty "array")], [("Names", "Names")]⟩)]⟩

/-- The schema `namesFieldSchema` after `Names` received the default `["a"]`. -/
def namesFieldSchemaSet : Schema :=
  ⟨[("Config",
      ⟨[("Names", ⟨"", "array", some (.slice (some [.string "a"]))⟩)],
        [("Names", "Names")]⟩)]⟩

/-! ## The schema file (generate.go, generate_config_docs.go) -/

/-- The embedding of `GetSchemaDir`; `lazyRoot` is what
`utils.GetLazyRootDirectory()` returns. -/
def GetSchemaDir (lazyRoot : String) : String :=
  lazyRoot ++ "/schema"

/-- The path `GenerateSchema` writes the schema to (generate.go, line 24). -/
def GenerateSchema_path (lazyRoot : String) : String :=
  GetSchemaDir lazyRoot ++ "/schema.json"

/-- The path `GenerateConfigDocs` reads the schema from
(generate_config_docs.go, line 179). -/
def GenerateConfigDocs_path (lazyRoot : String) : String :=
  GetSchemaDir lazyRoot ++ "/config.json"

/-- The files on disk: path and content, the first entry for a path counts. -/
abbrev Files := List (String × List Nat)

/-- The file write of `GenerateSchema` (generate.go, line 24), taken to
succeed: afterwards the path holds the marshalled schema `obj`. -/
def GenerateSchema_write (lazyRoot : String) (obj : List Nat) (files : Files) : Files :=
  (GenerateSchema_path lazyRoot, obj) :: files

/-- The file read of `GenerateConfigDocs` (generate_config_docs.go, lines
179-182); `none` is the panic `Error reading config.json`. -/
def GenerateConfigDocs_read (lazyRoot : String) (files : Files) : Option (List Nat) :=
  files.lookup (GenerateConfigDocs_path lazyRoot)

/-! ## Preprocessing of the serialized block, in the words of the specification -/

/-- Lines joined with line feeds (`strings.Join(lines, "\n")`): a line feed
between consecutive lines and none after the last. -/
def joinLines : List (List Nat) → List Nat
  | [] => []
  | [line] => line
  | line :: next :: rest => line ++ 10 :: joinLines (next :: rest)

/-- The line is not a document separator: its trimmed content is not `---`. -/
def keptLine (line : List Nat) : Bool :=
  TrimSpace line != bytesOf "---"

/-! ## Serialization of the documentation tree (generate_config_docs.go) -/

/-- The kinds of `yaml.Kind`. -/
inductive YamlKind where
  | DocumentNode | SequenceNode | MappingNode | ScalarNode | AliasNode
  deriving DecidableEq, Repr

/-- The part of `yaml.Node` that `MarshalYAML` sets or reads: kind, tag, value,
head comment and content.  The remaining fields keep their zero values in the
nodes `MarshalYAML` builds itself. -/
inductive YamlNode where
  | mk (Kind : YamlKind) (Tag Value HeadComment : String) (Content : List YamlNode)

/-- The field `Kind` of a yaml node. -/
def YamlNode.Kind : YamlNode → YamlKind
  | .mk kind _ _ _ _ => kind

/-- The field `Value` of a yaml node. -/
def YamlNode.Value : YamlNode → String
  | .mk _ _ value _ _ => value

/-- The field `HeadComment` of a yaml node. -/
def YamlNode.HeadComment : YamlNode → String
  | .mk _ _ _ comment _ => comment

/-- The field `Content` of a yaml node. -/
def YamlNode.Content : YamlNode → List YamlNode
  | .mk _ _ _ _ content => content

/-- The key node of `MarshalYAML` (lines 30-36, and 57-63 for a child): a
scalar with the node's name, and the description as head comment when the
description is not empty. -/
def keyNode (name description : String) : YamlNode :=
  .mk .ScalarNode "" name (if description ≠ "" then description else "") []

mutual
/-- The embedding of `Node.MarshalYAML` (lines 25-71).  `encode` is
`yaml.Node.Encode` of the yaml library, which overwrites the value node with
the encoding of the default; `none` is a returned error.  The cases, in the
order of the source's tests read backwards: no default and no children, where
neither branch of the `if` runs and `node.Content` stays empty (the key node
built in lines 30-36 is not appended); no default and children (lines 47-68);
a default (lines 38-46). -/
def Node.MarshalYAML (encode : JSON → Option YamlNode) : Node → Option YamlNode
  | .mk _ _ .null [] => some (.mk .MappingNode "" "" "" [])
  | .mk name description .null (child :: rest) =>
    match Node.childrenContent encode (child :: rest) with
    | none => none
    | some content =>
      some (.mk .MappingNode "" "" ""
        [keyNode name description, .mk .MappingNode "" "" "" content])
  | .mk name description default _ =>
    match encode default with
    | none => none
    | some valueNode => some (.mk .MappingNode "" "" "" [keyNode name description, valueNode])
termination_by structural n => n
/-- The loop over the children in `MarshalYAML` (lines 51-66): the content of
each child's own result, appended in child order; the first error is
returned. -/
def Node.childrenContent (encode : JSON → Option YamlNode) : List Node → Option (List YamlNode)
  | [] => some []
  | child :: rest =>
    match Node.MarshalYAML encode child with
    | none => none
    | some childYaml =>
      match Node.childrenContent encode rest with
      | none => none
      | some more => some (childYaml.Content ++ more)
termination_by structural children => children
end

mutual
/-- A stand-in for `yaml.Node.Encode` on decoded JSON values, for sample
evaluations: scalars become scalar nodes, an array a sequence of its elements'
encodings, an ordered map (a Go struct without exported fields) an empty
mapping. -/
def sampleEncode : JSON → Option YamlNode
  | .null => some (.mk .ScalarNode "!!null" "null" "" [])
  | .bool true => some (.mk .ScalarNode "!!bool" "true" "" [])
  | .bool false => some (.mk .ScalarNode "!!bool" "false" "" [])
  | .number literal => some (.mk .ScalarNode "!!float" literal "" [])
  | .string s => some (.mk .ScalarNode "!!str" s "" [])
  | .array elems => some (.mk .SequenceNode "!!seq" "" "" (sampleEncodeAll elems))
  | .object _ => some (.mk .MappingNode "!!map" "" "" [])
termination_by structural v => v
/-- The encodings of the elements of an array. -/
def sampleEncodeAll : List JSON → List YamlNode
  | [] => []
  | elem :: rest =>
    match sampleEncode elem with
    | some y => y :: sampleEncodeAll rest
    | none => sampleEncodeAll rest
termination_by structural elems => elems
end

/-- The contents of yaml nodes, concatenated in order. -/
def contentsOf : List YamlNode → List YamlNode
  | [] => []
  | y :: rest => y.Content ++ contentsOf rest

/-- The branch `gui` with the leaf `theme` and a node `border` that has
neither default nor children. -/
def sampleBranch : Node :=
  .mk "gui" "Config relating to the UI" .null
    [.mk "theme" "The theme" (.string "dark") [], .mk "border" "" .null []]

/-! ## Leaves and branches -/

mutual
/-- Neither the node nor any node below it has both a default and children. -/
def Node.NeverBoth : Node → Prop
  | .mk _ _ default children =>
    (default = .null ∨ children = []) ∧ Node.AllNeverBoth children
termination_by structural n => n
/-- No node of the list, nor any node below, has both a default and children. -/
def Node.AllNeverBoth : List Node → Prop
  | [] => True
  | child :: rest => Node.NeverBoth child ∧ Node.AllNeverBoth rest
termination_by structural nodes => nodes
end

/-- The branch node `parseNode` builds for the nested properties `props`. -/
def branchNode (name description : String) (props : List (String × JSON)) : Node :=
  .mk name description .null
    (parseProperties (.mk name description .null []) props).state.Children

/-! # Theorems

## The walk is the replay of its trace -/

mutual
/-- A loop iteration is the replay of its trace. -/
theorem visitField_eq_replay (parentKey : String) (f : StructField) :
    ∀ (value : Value) (s : Schema),
      visitField parentKey f value s = replay (visitTrace parentKey f value) s
  | .struct typeName fields, s => by
    rw [visitField, visitTrace]
    split
    · exact fieldLoop_eq_replay typeName fields s
    · rfl
  | .iface (some (.struct typeName fields)), s => by
    rw [visitField, visitTrace]
    split
    · exact fieldLoop_eq_replay typeName fields s
    · rfl
  | .bool _, s | .int _, s | .uint _, s | .float _, s | .string _, s | .array _, s => by
    by_cases hp : f.PkgPath = "" <;>
      simp [visitField, visitTrace, Value.Interface, hp, isStruct, visitLeaf, isNilSwitch,
        Value.Kind, Value.IsNil, replay, Write.apply]
  | .chan h, s | .func h, s | .map h, s | .slice h, s | .ptr h, s => by
    by_cases hp : f.PkgPath = "" <;> cases h <;>
      simp [visitField, visitTrace, Value.Interface, hp, isStruct, visitLeaf, isNilSwitch,
        Value.Kind, Value.IsNil, replay, Write.apply]
  | .iface none, s => by
    by_cases hp : f.PkgPath = "" <;>
      simp [visitField, visitTrace, Value.Interface, hp, isStruct, visitLeaf, isNilSwitch,
        Value.Kind, Value.IsNil, replay, Write.apply]
  | .iface (some (.bool _)), s | .iface (some (.int _)), s | .iface (some (.uint _)), s
  | .iface (some (.float _)), s | .iface (some (.string _)), s | .iface (some (.array _)), s
  | .iface (some (.chan _)), s | .iface (some (.func _)), s | .iface (some (.map _)), s
  | .iface (some (.slice _)), s | .iface (some (.ptr _)), s | .iface (some (.iface _)), s => by
    by_cases hp : f.PkgPath = "" <;>
      simp [visitField, visitTrace, Value.Interface, hp, isStruct, visitLeaf, isNilSwitch,
        Value.Kind, Value.IsNil, replay, Write.apply]
/-- The field loop is the replay of its trace. -/
theorem fieldLoop_eq_replay (parentKey : String) :
    ∀ (fields : List (StructField × Value)) (s : Schema),
      fieldLoop parentKey fields s = replay (loopTrace parentKey fields) s
  | [], s => by simp [fieldLoop, loopTrace, replay]
  | (f, value) :: rest, s => by
    rw [fieldLoop, loopTrace, visitField_eq_replay parentKey f value s]
    rcases h : visitTrace parentKey f value with ⟨ws, _ | _⟩
    · simp only [replay]
      simp [fieldLoop_eq_replay parentKey rest, replay, List.foldl_append]
    · simp [replay]
end

/-- The recursion of the source, as written there: a loop iteration calls
`value.Interface()`, tests `isStruct`, and either re-enters `setDefaultVals`
on the struct or handles the field as a leaf. -/
theorem visitField_unfold (parentKey : String) (f : StructField) (value : Value) (s : Schema) :
    visitField parentKey f value s =
      match value.Interface f with
      | none => .panicked s
      | some asAny =>
        match isStruct asAny with
        | none => .panicked s
        | some true => setDefaultVals asAny s
        | some false => visitLeaf parentKey f value asAny s := by
  by_cases hp : f.PkgPath = ""
  · cases value with
    | iface d =>
      cases d with
      | none => simp [visitField, Value.Interface, hp, isStruct]
      | some v =>
        cases v <;>
          simp [visitField, Value.Interface, hp, isStruct, setDefaultVals, Value.Kind]
    | _ => simp [visitField, Value.Interface, hp, isStruct, setDefaultVals, Value.Kind]
  · cases value with
    | iface d =>
      cases d with
      | none => simp [visitField, Value.Interface, hp]
      | some v => cases v <;> simp [visitField, Value.Interface, hp]
    | _ => simp [visitField, Value.Interface, hp]

theorem keyRel_refl {β : Type} {R : β → β → Prop} (hR : ∀ x, R x x) :
    ∀ l : List (String × β), KeyRel R l l
  | [] => List.Forall₂.nil
  | a :: l => List.Forall₂.cons ⟨rfl, hR a.2⟩ (keyRel_refl hR l)

theorem keyRel_trans {β : Type} {R : β → β → Prop} (hR : ∀ x y z, R x y → R y z → R x z) :
    ∀ {l l' l'' : List (String × β)}, KeyRel R l l' → KeyRel R l' l'' → KeyRel R l l''
  | [], _, _, h1, h2 => by
    cases h1; cases h2; exact List.Forall₂.nil
  | a :: l, _, _, h1, h2 => by
    cases h1 with
    | cons hab hl =>
      cases h2 with
      | cons hbc hl' =>
        exact List.Forall₂.cons ⟨hab.1.trans hbc.1, hR _ _ _ hab.2 hbc.2⟩
          (keyRel_trans hR hl hl')

theorem keyRel_modifyFirst {β : Type} {R : β → β → Prop} (hR : ∀ x, R x x)
    (k : String) (g : β → β) :
    ∀ l : List (String × β), (∀ x, l.lookup k = some x → R x (g x)) →
      KeyRel R l (modifyFirst k g l)
  | [], _ => List.Forall₂.nil
  | (k', b) :: l, hg => by
    unfold JsonSchema.modifyFirst
    by_cases h : k' = k
    · subst h
      simp only [if_true]
      exact List.Forall₂.cons ⟨rfl, hg b (by simp [List.lookup_cons])⟩ (keyRel_refl hR l)
    · have h' : (k == k') = false := by
        simpa using fun e : k = k' => h e.symm
      simp only [h, if_false]
      refine List.Forall₂.cons ⟨rfl, hR b⟩ (keyRel_modifyFirst hR k g l ?_)
      intro x hx
      exact hg x (by simpa [List.lookup_cons, h'] using hx)

theorem keyRel_lookup_none {β : Type} {R : β → β → Prop} (k : String) :
    ∀ {l l' : List (String × β)}, KeyRel R l l' → l.lookup k = none → l'.lookup k = none
  | [], _, h, _ => by cases h; rfl
  | (k1, b) :: l, _, h, hl => by
    cases h with
    | cons hab hrest =>
      rename_i b' l'
      obtain ⟨k2, c⟩ := b'
      have hk : k1 = k2 := hab.1
      subst hk
      rw [List.lookup_cons] at hl ⊢
      cases hkk : (k == k1) with
      | true => rw [hkk] at hl; cases hl
      | false =>
        rw [hkk] at hl
        exact keyRel_lookup_none k hrest hl

theorem keyRel_lookup_some {β : Type} {R : β → β → Prop} (k : String) :
    ∀ {l l' : List (String × β)} {x : β}, KeyRel R l l' → l.lookup k = some x →
      ∃ x', l'.lookup k = some x' ∧ R x x'
  | [], _, _, _, hl => by cases hl
  | (k1, b) :: l, _, x, h, hl => by
    cases h with
    | cons hab hrest =>
      rename_i b' l'
      obtain ⟨k2, c⟩ := b'
      have hk : k1 = k2 := hab.1
      subst hk
      rw [List.lookup_cons] at hl ⊢
      cases hkk : (k == k1) with
      | true =>
        rw [hkk] at hl
        cases hl
        exact ⟨c, rfl, hab.2⟩
      | false =>
        rw [hkk] at hl
        exact keyRel_lookup_some k hrest hl

theorem lookup_modifyFirst {β : Type} (k : String) (g : β → β) :
    ∀ l : List (String × β), (modifyFirst k g l).lookup k = (l.lookup k).map g
  | [] => rfl
  | (k', b) :: l => by
    unfold JsonSchema.modifyFirst
    by_cases h : k' = k
    · subst h
      simp [List.lookup_cons]
    · have h' : (k == k') = false := by
        simpa using fun e : k = k' => h e.symm
      simp [h, List.lookup_cons, h', lookup_modifyFirst k g l]

theorem propertyFills_refl (p : Property) : Property.Fills p p :=
  ⟨rfl, rfl, fun _ => rfl⟩

theorem propertyFills_trans (p q r : Property) (h1 : Property.Fills p q)
    (h2 : Property.Fills q r) : Property.Fills p r := by
  refine ⟨h2.1.trans h1.1, h2.2.1.trans h1.2.1, fun hp => ?_⟩
  have hq : q.Default = p.Default := h1.2.2 hp
  have hr : r.Default = q.Default := h2.2.2 (by rw [hq]; exact hp)
  exact hr.trans hq

theorem definitionFills_refl (d : Definition) : Definition.Fills d d :=
  ⟨rfl, keyRel_refl propertyFills_refl _⟩

theorem definitionFills_trans (d e g : Definition) (h1 : Definition.Fills d e)
    (h2 : Definition.Fills e g) : Definition.Fills d g :=
  ⟨h2.1.trans h1.1, keyRel_trans propertyFills_trans h1.2 h2.2⟩

theorem schemaFills_refl (s : Schema) : Schema.Fills s s :=
  keyRel_refl definitionFills_refl _

theorem schemaFills_trans {s t u : Schema} (h1 : Schema.Fills s t) (h2 : Schema.Fills t u) :
    Schema.Fills s u :=
  keyRel_trans definitionFills_trans h1 h2

theorem setDefault_of_blocked (parentKey key : String) (value : Any) (s : Schema)
    (h : Blocked parentKey key s) : setDefault parentKey key value s = s := by
  unfold Blocked at h
  unfold setDefault
  split
  · rfl
  · rename_i d hd
    rw [hd] at h
    simp only at h
    split
    · rfl
    · rename_i pn hpn
      rw [hpn] at h
      simp only at h
      split
      · rfl
      · rename_i p hp
        rw [hp] at h
        simp only at h
        split
        · rfl
        · rename_i hnone
          rw [hnone] at h
          cases h

theorem setDefault_fills (parentKey key : String) (value : Any) (s : Schema) :
    Schema.Fills s (setDefault parentKey key value s) := by
  unfold setDefault
  split
  · exact schemaFills_refl s
  · rename_i d hd
    split
    · exact schemaFills_refl s
    · rename_i pn hpn
      split
      · exact schemaFills_refl s
      · rename_i p hp
        split
        · exact schemaFills_refl s
        · rename_i hnone
          refine keyRel_modifyFirst definitionFills_refl _ _ _ ?_
          intro d' hd'
          rw [hd] at hd'
          cases hd'
          refine ⟨rfl, keyRel_modifyFirst propertyFills_refl _ _ _ ?_⟩
          intro p' hp'
          rw [hp] at hp'
          cases hp'
          exact ⟨rfl, rfl, fun hsome => by rw [hnone] at hsome; cases hsome⟩

theorem blocked_setDefault (parentKey key : String) (v : Value) (s : Schema) :
    Blocked parentKey key (setDefault parentKey key (some v) s) := by
  by_cases hb : Blocked parentKey key s
  · rw [setDefault_of_blocked _ _ _ _ hb]
    exact hb
  · unfold Blocked at hb
    unfold setDefault Blocked
    split at hb
    · exact absurd trivial hb
    · rename_i d hd
      split at hb
      · exact absurd trivial hb
      · rename_i pn hpn
        split at hb
        · exact absurd trivial hb
        · rename_i p hp
          cases hdef : p.Default with
          | some x => rw [hdef] at hb; exact absurd rfl hb
          | none =>
            simp only [hd, hpn, hp, hdef, lookup_modifyFirst, Option.map_some']
            rfl

theorem blocked_of_fills {parentKey key : String} {s s' : Schema} (hf : Schema.Fills s s')
    (h : Blocked parentKey key s) : Blocked parentKey key s' := by
  unfold Blocked at h ⊢
  cases hd : s.Definitions.lookup parentKey with
  | none => rw [keyRel_lookup_none parentKey hf hd]; trivial
  | some d =>
    obtain ⟨d', hd', hdd⟩ := keyRel_lookup_some parentKey hf hd
    rw [hd] at h
    rw [hd']
    simp only at h ⊢
    rw [hdd.1]
    cases hpn : d.OriginalPropertiesMapping.lookup key with
    | none => trivial
    | some pn =>
      rw [hpn] at h
      simp only at h ⊢
      cases hp : d.Properties.lookup pn with
      | none => rw [keyRel_lookup_none pn hdd.2 hp]; trivial
      | some p =>
        obtain ⟨p', hp', hpp⟩ := keyRel_lookup_some pn hdd.2 hp
        rw [hp] at h
        rw [hp']
        simp only at h ⊢
        rw [hpp.2.2 h]
        exact h

/-! ## Replaying a trace -/

theorem foldl_fills :
    ∀ (ws : List Write) (s : Schema), Schema.Fills s (ws.foldl Write.apply s)
  | [], s => schemaFills_refl s
  | w :: ws, s =>
    schemaFills_trans (setDefault_fills w.parentKey w.key (some w.value) s)
      (foldl_fills ws (Write.apply s w))

theorem foldl_blocked :
    ∀ (ws : List Write) (s : Schema) (w : Write), w ∈ ws →
      Blocked w.parentKey w.key (ws.foldl Write.apply s)
  | [], _, _, h => by cases h
  | w0 :: ws, s, w, h => by
    rcases List.mem_cons.mp h with h0 | h1
    · subst h0
      exact blocked_of_fills (foldl_fills ws (Write.apply s w))
        (blocked_setDefault w.parentKey w.key w.value s)
    · exact foldl_blocked ws (Write.apply s w0) w h1

theorem foldl_of_blocked :
    ∀ (ws : List Write) (t : Schema), (∀ w ∈ ws, Blocked w.parentKey w.key t) →
      ws.foldl Write.apply t = t
  | [], _, _ => rfl
  | w :: ws, t, h => by
    have hw : Write.apply t w = t :=
      setDefault_of_blocked _ _ _ _ (h w (List.mem_cons_self _ _))
    rw [List.foldl_cons, hw]
    exact foldl_of_blocked ws t (fun w' hw' => h w' (List.mem_cons_of_mem _ hw'))

theorem replay_state (t : List Write × Bool) (s : Schema) :
    (replay t s).state = t.1.foldl Write.apply s := by
  unfold replay
  split <;> rfl

theorem replay_replay (t : List Write × Bool) (s : Schema) :
    replay t (replay t s).state = replay t s := by
  have h : t.1.foldl Write.apply (replay t s).state = (replay t s).state :=
    foldl_of_blocked t.1 _ (fun w hw => by
      rw [replay_state]
      exact foldl_blocked t.1 s w hw)
  rw [replay_state] at h ⊢
  unfold replay
  rw [h]

theorem setDefaultVals_eq_replay (defaults : Any) (s : Schema) :
    setDefaultVals defaults s = replay (callTrace defaults) s := by
  unfold setDefaultVals callTrace
  cases defaults with
  | none => rfl
  | some d =>
    simp only
    split
    · exact fieldLoop_eq_replay _ _ s
    · rfl

/-- Whatever the instance, the walk changes the schema only by filling in
unset defaults. -/
theorem setDefaultVals_fills (defaults : Any) (s : Schema) :
    Schema.Fills s (setDefaultVals defaults s).state := by
  rw [setDefaultVals_eq_replay, replay_state]
  exact foldl_fills _ s

/-! ## Default injection: the claims -/

/-- A field of a kind that cannot be nil (bool, numbers, string, array) is
never injected, zero or not: `isNil` keeps its initial value `true`. -/
theorem visitField_scalar (parentKey : String) (f : StructField) (value : Value) (s : Schema)
    (hexp : f.PkgPath = "")
    (hkind : value.Kind = .Bool ∨ value.Kind = .Int ∨ value.Kind = .Uint ∨
      value.Kind = .Float ∨ value.Kind = .String ∨ value.Kind = .Array) :
    visitField parentKey f value s = .returned s := by
  cases value <;>
    simp [Value.Kind] at hkind <;>
    simp [visitField, Value.Interface, hexp, isStruct, visitLeaf, isNilSwitch, Value.Kind]

/-- C1 (code as written): the walk over `&Config{Count: 0, Enabled: false,
Title: ""}` returns the schema as it was; the zero values of the int, bool and
string fields are skipped and the properties `count`, `enabled`, `title` stay
without a default, although definition, mapping and property all exist. -/
theorem setDefaultVals_zero_scalars_skipped :
    setDefaultVals (some (.ptr (some zeroConfig))) zeroConfigSchema
        = .returned zeroConfigSchema ∧
      (((setDefaultVals (some (.ptr (some zeroConfig))) zeroConfigSchema).state.Definitions.lookup
          "Config").bind
          (fun d => (d.Properties.lookup "count").map (fun p => p.Default.isSome)))
        = some false := by
  constructor <;> rfl

/-- C2: running `setDefaultVals` with the same instance a second time, on the
schema the first run left behind, reproduces the outcome of the first run:
the schema is the same (and so is whether the run returned or panicked). -/
theorem setDefaultVals_idempotent (defaults : Any) (schema : Schema) :
    setDefaultVals defaults (setDefaultVals defaults schema).state
      = setDefaultVals defaults schema := by
  rw [setDefaultVals_eq_replay, setDefaultVals_eq_replay]
  exact replay_replay _ _

/-- C3: a property that has a default before the walk has the very same one
in the schema the walk leaves behind, whatever the instance holds. -/
theorem setDefaultVals_keeps_default (defaults : Any) (schema : Schema)
    (typeName propertyName : String) (definition : Definition) (property : Property)
    (d : Value)
    (hdef : schema.Definitions.lookup typeName = some definition)
    (hprop : definition.Properties.lookup propertyName = some property)
    (hd : property.Default = some d) :
    ∃ definition' property',
      (setDefaultVals defaults schema).state.Definitions.lookup typeName = some definition' ∧
        definition'.Properties.lookup propertyName = some property' ∧
        property'.Default = some d := by
  obtain ⟨definition', h1, hdd⟩ :=
    keyRel_lookup_some typeName (setDefaultVals_fills defaults schema) hdef
  obtain ⟨property', h2, hpp⟩ := keyRel_lookup_some propertyName hdd.2 hprop
  refine ⟨definition', property', h1, h2, ?_⟩
  rw [hpp.2.2 (by rw [hd]; rfl), hd]

/-- Witness for C3: the instance holds `Names: ["a"]`, the property `names`
holds the default `"keep"` and keeps it. -/
theorem setDefaultVals_keeps_default_witness :
    ∃ definition' property',
      (setDefaultVals (some namesConfig) keepSchema).state.Definitions.lookup "Config"
          = some definition' ∧
        definition'.Properties.lookup "names" = some property' ∧
        property'.Default = some (.string "keep") :=
  setDefaultVals_keeps_default (some namesConfig) keepSchema "Config" "names"
    ⟨[("names", ⟨"", "array", some (.string "keep")⟩)], [("Names", "names")]⟩
    ⟨"", "array", some (.string "keep")⟩ (.string "keep") rfl rfl rfl

/-- A nil channel, func, map, slice or pointer in an exported field is
skipped: the iteration returns the schema it was given. -/
theorem visitField_nil_reference (parentKey : String) (f : StructField) (value : Value)
    (s : Schema) (hexp : f.PkgPath = "")
    (hnil : value = .chan none ∨ value = .func none ∨ value = .map none ∨
      value = .slice none ∨ value = .ptr none) :
    visitField parentKey f value s = .returned s := by
  rcases hnil with h | h | h | h | h <;> subst h <;>
    simp [visitField, Value.Interface, hexp, isStruct, visitLeaf, isNilSwitch, Value.Kind,
      Value.IsNil]

/-- C4 (code as written): with a nil interface in the exported field `Hook`
the walk panics at that field, so `names` never receives its default; the
same instance without `Hook` is walked to the end and `names` gets `["a"]`.
Where a later field maps to the same property `hook`, that property ends up
without a default, while without the nil field it gets `["a"]`. -/
theorem setDefaultVals_nil_interface_panics :
    setDefaultVals (some hookConfig) hookSchema = .panicked hookSchema ∧
      setDefaultVals (some namesConfig) hookSchema = .returned hookSchemaNames ∧
      setDefaultVals (some nestedHookConfig) hookSchema = .panicked hookSchema ∧
      setDefaultVals (some nestedConfig) hookSchema = .returned hookSchemaHook := by
  refine ⟨rfl, rfl, rfl, rfl⟩

mutual
/-- A loop iteration panics exactly on a field that is not walkable. -/
theorem visitTrace_panics (parentKey : String) (f : StructField) :
    ∀ value : Value, (visitTrace parentKey f value).2 = !fieldWalkable f value
  | .struct typeName fields => by
    rw [visitTrace, fieldWalkable]
    by_cases hp : f.PkgPath = ""
    · simp [hp, loopTrace_panics typeName fields]
    · simp [hp]
  | .iface (some (.struct typeName fields)) => by
    rw [visitTrace, fieldWalkable]
    by_cases hp : f.PkgPath = ""
    · simp [hp, loopTrace_panics typeName fields]
    · simp [hp]
  | .bool _ | .int _ | .uint _ | .float _ | .string _ | .array _ => by
    by_cases hp : f.PkgPath = "" <;>
      simp [visitTrace, fieldWalkable, Value.Interface, hp, isNilSwitch, Value.Kind]
  | .chan h | .func h | .map h | .slice h | .ptr h => by
    by_cases hp : f.PkgPath = "" <;> cases h <;>
      simp [visitTrace, fieldWalkable, Value.Interface, hp, isNilSwitch, Value.Kind,
        Value.IsNil]
  | .iface none => by
    by_cases hp : f.PkgPath = "" <;>
      simp [visitTrace, fieldWalkable, Value.Interface, hp]
  | .iface (some (.bool _)) | .iface (some (.int _)) | .iface (some (.uint _))
  | .iface (some (.float _)) | .iface (some (.string _)) | .iface (some (.array _))
  | .iface (some (.chan _)) | .iface (some (.func _)) | .iface (some (.map _))
  | .iface (some (.slice _)) | .iface (some (.ptr _)) | .iface (some (.iface _)) => by
    by_cases hp : f.PkgPath = "" <;>
      simp [visitTrace, fieldWalkable, Value.Interface, hp, isNilSwitch, Value.Kind,
        Value.IsNil]
/-- The field loop panics exactly when some field is not walkable. -/
theorem loopTrace_panics (parentKey : String) :
    ∀ fields : List (StructField × Value),
      (loopTrace parentKey fields).2 = !fieldsWalkable fields
  | [] => by simp [loopTrace, fieldsWalkable]
  | (f, value) :: rest => by
    rw [loopTrace, fieldsWalkable]
    have hv := visitTrace_panics parentKey f value
    rcases h : visitTrace parentKey f value with ⟨ws, _ | _⟩
    · rw [h] at hv
      simp only at hv ⊢
      rw [loopTrace_panics parentKey rest]
      cases hw : fieldWalkable f value
      · rw [hw] at hv; cases hv
      · simp
    · rw [h] at hv
      simp only at hv ⊢
      cases hw : fieldWalkable f value
      · simp
      · rw [hw] at hv; cases hv
end

theorem lookupMiss_blocked {parentKey key : String} {s : Schema}
    (h : LookupMiss parentKey key s) : Blocked parentKey key s := by
  unfold Blocked
  rcases h with h | ⟨d, hd, h | ⟨pn, hpn, hp⟩⟩
  · rw [h]; trivial
  · rw [hd]; simp only; rw [h]; trivial
  · rw [hd]; simp only; rw [hpn]; simp only; rw [hp]; trivial

/-- C5, counterexample: the struct-shaped instance `Config{secret: []string{}}`
has an unexported field, and the walk over it panics (reflect refuses
`Interface` on a value obtained from an unexported field). -/
theorem setDefaultVals_unexported_panics :
    setDefaultVals (some secretConfig) hookSchema = .panicked hookSchema := by
  rfl

/-- C5, amended: on a struct, or a pointer to a struct, all of whose walked
fields are exported and none of which is a nil interface, the walk returns
(it does not panic), for every schema; and an iteration on an exported,
non-struct field for which a lookup misses returns the schema unchanged. -/
theorem setDefaultVals_returns_of_walkable (defaults : Any) (typeName : String)
    (fields : List (StructField × Value)) (schema : Schema)
    (hshape : defaults = some (.struct typeName fields) ∨
      defaults = some (.ptr (some (.struct typeName fields))))
    (hwalk : fieldsWalkable fields = true) :
    (∃ schema', setDefaultVals defaults schema = .returned schema') ∧
      ∀ (parentKey : String) (f : StructField) (value x : Value) (s : Schema),
        value.Interface f = some (some x) → isStruct (some x) = some false →
        LookupMiss parentKey f.Name s →
        visitField parentKey f value s = .returned s := by
  constructor
  · have hloop : fieldLoop typeName fields schema
        = .returned ((loopTrace typeName fields).1.foldl Write.apply schema) := by
      rw [fieldLoop_eq_replay]
      unfold replay
      rw [loopTrace_panics, hwalk]
      rfl
    rcases hshape with h | h <;> subst h <;> exact ⟨_, hloop⟩
  · intro parentKey f value x s hint hstruct hmiss
    rw [visitField_unfold, hint]
    simp only [hstruct]
    unfold visitLeaf
    rw [setDefault_of_blocked _ _ _ _ (lookupMiss_blocked hmiss)]
    have hnil : isNilSwitch value ≠ none := by
      cases value <;> simp [isNilSwitch, Value.Kind, Value.IsNil]
    cases hsw : isNilSwitch value with
    | none => exact absurd hsw hnil
    | some b => cases b <;> rfl

/-- Witness for C5: `Config{Names: []string{"a"}}` is walkable; against the
empty schema its field `Names` misses the definition lookup. -/
theorem setDefaultVals_returns_of_walkable_witness :
    (∃ schema', setDefaultVals (some (.ptr (some namesConfig))) ⟨[]⟩ = .returned schema') ∧
      visitField "Config" (exported "Names") (.slice (some [.string "a"])) ⟨[]⟩
        = .returned ⟨[]⟩ :=
  have h := setDefaultVals_returns_of_walkable (some (.ptr (some namesConfig))) "Config"
    [(exported "Names", .slice (some [.string "a"]))] ⟨[]⟩ (Or.inr rfl) rfl
  ⟨h.1, h.2 "Config" (exported "Names") (.slice (some [.string "a"]))
    (.slice (some [.string "a"])) ⟨[]⟩ rfl rfl (Or.inl rfl)⟩

/-! ## The documentation tree: leaves -/

theorem Node.children_appendChild (parent child : Node) :
    (parent.appendChild child).Children = parent.Children ++ [child] := by
  cases parent; rfl

theorem children_appendLeaf (parent : Node) (name description : String) (r : Option JSON) :
    (appendLeaf parent name description r).Children =
      parent.Children ++
        (match r with
          | some d => [Node.mk name description d []]
          | none => []) := by
  cases r with
  | none => simp [appendLeaf]
  | some d => simp [appendLeaf, Node.children_appendChild]

/-- The branch step only appends to the parent's children, and what it
appends does not depend on the parent. -/
theorem parseBranch_children (name description : String) :
    ∀ (value : List (String × JSON)) (parent : Node),
      (parseBranch parent name description value).state.Children =
        parent.Children ++ branchNodes name description value
  | [], parent => by simp [parseBranch, branchNodes, Run.state, Node.Children]
  | (key, properties) :: rest, parent => by
    have ih := parseBranch_children name description rest parent
    unfold branchNodes at ih ⊢
    by_cases hk : key = "properties"
    · cases properties with
      | object orderedProperties =>
        simp only [parseBranch, hk, if_true]
        cases parseProperties (.mk name description .null []) orderedProperties <;>
          simp only [Run.state, Node.children_appendChild] <;> rfl
      | _ => simp [parseBranch, hk, Run.state, Node.Children]
    · cases properties <;> simp only [parseBranch, hk, if_false] <;> exact ih

/-- The branch step of `parseNode` as the source writes it, with
`value.Get("properties")` as a lookup. -/
theorem parseBranch_unfold (parent : Node) (name description : String) :
    ∀ value : List (String × JSON),
      parseBranch parent name description value =
        match value.lookup "properties" with
        | none => .returned parent
        | some (.object orderedProperties) =>
          match parseProperties (.mk name description .null []) orderedProperties with
          | .returned node => .returned (parent.appendChild node)
          | .panicked node => .panicked (parent.appendChild node)
        | some _ => .panicked parent
  | [] => by simp [parseBranch]
  | (key, properties) :: rest => by
    by_cases hk : key = "properties"
    · subst hk
      cases properties <;> simp [parseBranch, List.lookup_cons]
    · have hk' : ("properties" == key) = false := by
        simpa using fun e : "properties" = key => hk e.symm
      cases properties <;>
        simp only [parseBranch, hk, if_false, List.lookup_cons, hk'] <;>
        exact parseBranch_unfold parent name description rest

/-- The children of the parent after `parseNode`, for a property whose
`description` and `type` entries are strings where present: the old children,
the leaf if there is a renderable default, and what the branch step appends. -/
theorem parseNode_children (parent : Node) (name : String)
    (value : List (String × JSON))
    (hdesc : ∀ j, value.lookup "description" = some j → ∃ s, j = .string s)
    (htype : ∀ j, value.lookup "type" = some j → ∃ s, j = .string s) :
    (parseNode parent name value).state.Children =
        parent.Children ++
          (match renderableDefault value with
            | some d => [Node.mk name (describedAs value) d []]
            | none => []) ++
          branchNodes name (describedAs value) value := by
  have hdescr : getDescription value = some (describedAs value) := by
    unfold getDescription describedAs
    cases h : value.lookup "description" with
    | none => rfl
    | some j =>
      obtain ⟨s, hs⟩ := hdesc j h
      subst hs
      rfl
  have hdef : getDefault value = some (renderableDefault value) := by
    unfold getDefault renderableDefault
    cases h : value.lookup "default" with
    | some d => rfl
    | none =>
      simp only
      cases ht : value.lookup "type" with
      | none => rfl
      | some j =>
        obtain ⟨s, hs⟩ := htype j ht
        subst hs
        simp only
        split <;> rfl
  unfold parseNode
  rw [parseValue]
  simp only [hdescr, hdef]
  rw [parseBranch_children, children_appendLeaf]

/-- C6: when the `description` and `type` entries of a property are strings
where present, `parseNode` leaves the parent with its old children, followed
by the leaf `{name, description, default}` exactly if the property has a
renderable default (the `default` entry if present, else `""` for type
`"string"`), followed by what the branch step appends.  A property
`{"type": "string"}` yields exactly the one leaf with default `""`. -/
theorem parseNode_leaf_iff_renderable (parent : Node) (name : String)
    (value : List (String × JSON))
    (hdesc : ∀ j, value.lookup "description" = some j → ∃ s, j = .string s)
    (htype : ∀ j, value.lookup "type" = some j → ∃ s, j = .string s) :
    (parseNode parent name value).state.Children =
        parent.Children ++
          (match renderableDefault value with
            | some d => [Node.mk name (describedAs value) d []]
            | none => []) ++
          branchNodes name (describedAs value) value ∧
      parseNode parent name [("type", .string "string")] =
        .returned (parent.appendChild (.mk name "" (.string "") [])) :=
  ⟨parseNode_children parent name value hdesc htype, rfl⟩

/-- Witness for C6: a property with a description, type `"integer"`, an
explicit default `1` and no nested properties yields the one leaf. -/
theorem parseNode_leaf_iff_renderable_witness :
    (parseNode (.mk "" "" .null []) "n"
        [("description", .string "d"), ("type", .string "integer"),
          ("default", .number "1")]).state.Children =
      [Node.mk "n" "d" (.number "1") []] :=
  (parseNode_leaf_iff_renderable (.mk "" "" .null []) "n"
    [("description", .string "d"), ("type", .string "integer"), ("default", .number "1")]
    (fun j h => by
      simp [List.lookup_cons] at h
      exact ⟨"d", h.symm⟩)
    (fun j h => by
      simp [List.lookup_cons] at h
      exact ⟨"integer", h.symm⟩)).1

/-! ## The documentation tree: order -/

theorem mem_doubled {k : String} : ∀ {ks : List String}, k ∈ doubled ks → k ∈ ks
  | [], h => by cases h
  | c :: ks, h => by
    simp only [doubled, List.mem_cons] at h ⊢
    rcases h with h | h | h
    · exact Or.inl h
    · exact Or.inl h
    · exact Or.inr (mem_doubled h)

theorem pair_sublist_cons {a b c : String} {l : List String} (h : [a, b] <+ c :: l) :
    [a, b] <+ l ∨ (a = c ∧ b ∈ l) := by
  cases h with
  | cons _ h' => exact Or.inl h'
  | cons₂ _ h' => exact Or.inr ⟨rfl, by simpa using h'⟩

theorem pair_sublist_doubled {a b : String} :
    ∀ {ks : List String}, [a, b] <+ doubled ks → (a = b ∧ a ∈ ks) ∨ [a, b] <+ ks
  | [], h => by cases h
  | c :: ks, h => by
    simp only [doubled] at h
    rcases pair_sublist_cons h with h1 | ⟨hac, hb⟩
    · rcases pair_sublist_cons h1 with h2 | ⟨hac, hb⟩
      · rcases pair_sublist_doubled h2 with ⟨hab, hm⟩ | hs
        · exact Or.inl ⟨hab, List.mem_cons_of_mem _ hm⟩
        · exact Or.inr (hs.cons c)
      · subst hac
        exact Or.inr (List.Sublist.cons₂ a (by simpa using mem_doubled hb))
    · subst hac
      rcases List.mem_cons.mp hb with hba | hb'
      · exact Or.inl ⟨hba.symm, List.mem_cons_self _ _⟩
      · exact Or.inr (List.Sublist.cons₂ a (by simpa using mem_doubled hb'))

theorem pair_sublist_antisymm {a b : String} :
    ∀ {ks : List String}, ks.Nodup → [a, b] <+ ks → ¬ [b, a] <+ ks
  | [], _, h, _ => by cases h
  | c :: ks, hn, h1, h2 => by
    have hc : c ∉ ks := (List.nodup_cons.mp hn).1
    have hks : ks.Nodup := (List.nodup_cons.mp hn).2
    rcases pair_sublist_cons h1 with h1' | ⟨hac, hb⟩
    · rcases pair_sublist_cons h2 with h2' | ⟨hbc, ha⟩
      · exact pair_sublist_antisymm hks h1' h2'
      · subst hbc
        exact hc (h1'.subset (by simp))
    · subst hac
      rcases pair_sublist_cons h2 with h2' | ⟨hbc, _⟩
      · exact hc (h2'.subset (by simp))
      · subst hbc
        exact hc hb

/-- Names that fit into the doubled key list follow the key order. -/
theorem levelOrdered_of_sublist_doubled {keys names : List String} (hn : keys.Nodup)
    (h : names <+ doubled keys) : LevelOrdered keys names := by
  refine ⟨fun n hmem => mem_doubled (h.subset hmem), ?_⟩
  intro k1 k2 h12 h21
  rcases pair_sublist_doubled (h21.trans h) with ⟨heq, _⟩ | h21'
  · subst heq
    exact absurd (hn.sublist h12) (by simp)
  · exact pair_sublist_antisymm hn h12 h21'

theorem Node.extend_nil (n : Node) : n.extend [] = n := by
  cases n; simp [Node.extend]

theorem Node.extend_extend (n : Node) (a b : List Node) :
    (n.extend a).extend b = n.extend (a ++ b) := by
  cases n; simp [Node.extend]

theorem Node.appendChild_eq_extend (n c : Node) : n.appendChild c = n.extend [c] := by
  cases n; rfl

theorem Node.children_extend (n : Node) (a : List Node) :
    (n.extend a).Children = n.Children ++ a := by
  cases n; rfl

theorem Node.name_extend (n : Node) (a : List Node) : (n.extend a).Name = n.Name := by
  cases n; rfl

theorem appendLeaf_eq_extend (parent : Node) (name description : String) (r : Option JSON) :
    ∃ leaves : List Node, appendLeaf parent name description r = parent.extend leaves ∧
      leaves.map Node.Name <+ [name] ∧ ∀ c ∈ leaves, c.Children = [] := by
  cases r with
  | none => exact ⟨[], by simp [appendLeaf, Node.extend_nil], by simp, by simp⟩
  | some d =>
    exact ⟨[.mk name description d []], by simp [appendLeaf, Node.appendChild_eq_extend],
      by simp [Node.Name], by simp [Node.Children]⟩

theorem Node.allOrderedBelow_iff (props : List (String × JSON)) :
    ∀ l : List Node, Node.AllOrderedBelow props l ↔ ∀ c ∈ l, Node.OrderedBelow props c
  | [] => by simp [Node.AllOrderedBelow]
  | c :: l => by simp [Node.AllOrderedBelow, Node.allOrderedBelow_iff props l]

theorem Node.orderedBelow_iff (props : List (String × JSON)) (c : Node) :
    Node.OrderedBelow props c ↔ TreeOrdered (childProperties props c.Name) c.Children := by
  cases c; simp [Node.OrderedBelow, TreeOrdered, Node.Name, Node.Children]

theorem treeOrdered_nil (props : List (String × JSON)) : TreeOrdered props [] := by
  refine ⟨⟨by simp, ?_⟩, by simp [Node.AllOrderedBelow]⟩
  intro k1 k2 _ h
  cases h

/-- Children whose names fit into the doubled keys of `props`, each built from
the property of its name, are in declaration order at every depth. -/
theorem treeOrdered_of_added {props : List (String × JSON)} {added : List Node}
    (hn : (keysOf props).Nodup) (hs : added.map Node.Name <+ doubled (keysOf props))
    (hc : ∀ c ∈ added, ∃ v, props.lookup c.Name = some v ∧
      TreeOrdered (nestedProperties v) c.Children) :
    TreeOrdered props added := by
  refine ⟨levelOrdered_of_sublist_doubled hn hs, ?_⟩
  rw [Node.allOrderedBelow_iff]
  intro c hmem
  obtain ⟨v, hv, ht⟩ := hc c hmem
  rw [Node.orderedBelow_iff]
  simpa [childProperties, hv] using ht

theorem lookup_mem_keysOf {k : String} {v : JSON} :
    ∀ {entries : List (String × JSON)}, entries.lookup k = some v → k ∈ keysOf entries
  | [], h => by cases h
  | (k', v') :: rest, h => by
    rw [List.lookup_cons] at h
    cases hkk : (k == k') with
    | true =>
      have : k = k' := by simpa using hkk
      simp [keysOf, this]
    | false =>
      rw [hkk] at h
      have := lookup_mem_keysOf h
      simp only [keysOf, List.map_cons, List.mem_cons] at this ⊢
      exact Or.inr this

/-- In an ordered map, whose keys are pairwise different, `Get` on the key of
an entry returns the value of that entry: ranging over the entries is ranging
over `Keys()` and calling `Get`. -/
theorem lookup_entry_of_nodup {k : String} {v : JSON} :
    ∀ {entries : List (String × JSON)}, (keysOf entries).Nodup → (k, v) ∈ entries →
      entries.lookup k = some v
  | [], _, h => by cases h
  | (k', v') :: rest, hn, h => by
    have hk' : k' ∉ keysOf rest := (List.nodup_cons.mp hn).1
    rcases List.mem_cons.mp h with heq | hmem
    · cases heq
      simp [List.lookup_cons]
    · have hne : (k == k') = false := by
        have hmem' : k ∈ keysOf rest := List.mem_map_of_mem Prod.fst hmem
        simpa using fun e : k = k' => hk' (e ▸ hmem')
      simpa [List.lookup_cons, hne] using
        lookup_entry_of_nodup (List.nodup_cons.mp hn).2 hmem

mutual
/-- What `parseNode` (after the caller's type assertion) does to its parent:
it appends at most a leaf and a branch, both named `name`, and below them the
children are in declaration order at every depth. -/
theorem parseValue_spec :
    ∀ (v : JSON), JSON.UniqueKeys v → ∀ (parent : Node) (name : String),
      ∃ added : List Node, (parseValue parent name v).state = parent.extend added ∧
        added.map Node.Name <+ [name, name] ∧
        ∀ c ∈ added, TreeOrdered (nestedProperties v) c.Children
  | .object value, hU, parent, name => by
    rw [JSON.UniqueKeys] at hU
    rw [parseValue]
    cases hd : getDescription value with
    | none => exact ⟨[], by simp [Run.state, Node.extend_nil], by simp, by simp⟩
    | some description =>
      simp only
      cases hr : getDefault value with
      | none => exact ⟨[], by simp [Run.state, Node.extend_nil], by simp, by simp⟩
      | some result =>
        simp only
        obtain ⟨leaves, hl, hln, hlc⟩ := appendLeaf_eq_extend parent name description result
        obtain ⟨added, ha, han, hac⟩ :=
          parseBranch_spec value hU.2 (appendLeaf parent name description result) name
            description
        refine ⟨leaves ++ added, ?_, ?_, ?_⟩
        · rw [ha, hl, Node.extend_extend]
        · simpa using hln.append han
        · intro c hc
          rcases List.mem_append.mp hc with h | h
          · rw [hlc c h]; exact treeOrdered_nil _
          · exact hac c h
  | .null, _, parent, _ | .bool _, _, parent, _ | .number _, _, parent, _
  | .string _, _, parent, _ | .array _, _, parent, _ =>
    ⟨[], by simp [parseValue, Run.state, Node.extend_nil], by simp, by simp⟩
/-- What the branch step does to the parent: it appends at most one node,
named `name`, whose children are in declaration order at every depth. -/
theorem parseBranch_spec :
    ∀ (entries : List (String × JSON)), JSON.EntriesUnique entries →
      ∀ (parent : Node) (name description : String),
      ∃ added : List Node,
        (parseBranch parent name description entries).state = parent.extend added ∧
        added.map Node.Name <+ [name] ∧
        ∀ c ∈ added, TreeOrdered (nestedProperties (.object entries)) c.Children
  | [], _, parent, _, _ =>
    ⟨[], by simp [parseBranch, Run.state, Node.extend_nil], by simp, by simp⟩
  | (key, .object orderedProperties) :: rest, hU, parent, name, description => by
    rw [JSON.EntriesUnique, JSON.UniqueKeys] at hU
    by_cases hk : key = "properties"
    · obtain ⟨added, ha, han, hac⟩ :=
        parseProperties_spec orderedProperties hU.1.1 hU.1.2 (.mk name description .null [])
      refine ⟨[(parseProperties (.mk name description .null []) orderedProperties).state],
        ?_, ?_, ?_⟩
      · simp only [parseBranch, hk, if_true]
        cases parseProperties (.mk name description .null []) orderedProperties <;>
          simp [Run.state, Node.appendChild_eq_extend]
      · rw [List.map_singleton, ha, Node.name_extend]
        exact List.Sublist.refl _
      · intro c hc
        have hceq : c = (parseProperties (.mk name description .null [])
            orderedProperties).state := by simpa using hc
        subst hceq
        rw [ha, Node.children_extend]
        have hnp : nestedProperties (.object ((key, .object orderedProperties) :: rest))
            = orderedProperties := by
          simp [nestedProperties, List.lookup_cons, hk]
        rw [hnp]
        simpa [Node.Children] using treeOrdered_of_added hU.1.1 han hac
    · obtain ⟨added, ha, han, hac⟩ := parseBranch_spec rest hU.2 parent name description
      have hk' : ("properties" == key) = false := by
        simpa using fun e : "properties" = key => hk e.symm
      refine ⟨added, ?_, han, ?_⟩
      · simpa only [parseBranch, hk, if_false] using ha
      · simpa [nestedProperties, List.lookup_cons, hk'] using hac
  | (key, .null) :: rest, hU, parent, name, description
  | (key, .bool _) :: rest, hU, parent, name, description
  | (key, .number _) :: rest, hU, parent, name, description
  | (key, .string _) :: rest, hU, parent, name, description
  | (key, .array _) :: rest, hU, parent, name, description => by
    rw [JSON.EntriesUnique] at hU
    by_cases hk : key = "properties"
    · exact ⟨[], by simp [parseBranch, hk, Run.state, Node.extend_nil], by simp, by simp⟩
    · obtain ⟨added, ha, han, hac⟩ := parseBranch_spec rest hU.2 parent name description
      have hk' : ("properties" == key) = false := by
        simpa using fun e : "properties" = key => hk e.symm
      refine ⟨added, ?_, han, ?_⟩
      · simpa only [parseBranch, hk, if_false] using ha
      · simpa [nestedProperties, List.lookup_cons, hk'] using hac
/-- What the loop over an ordered map does to the node: the names of the
appended children fit into the doubled key list, and each child is built from
the property of its name. -/
theorem parseProperties_spec :
    ∀ (entries : List (String × JSON)), (keysOf entries).Nodup →
      JSON.EntriesUnique entries → ∀ (node : Node),
      ∃ added : List Node, (parseProperties node entries).state = node.extend added ∧
        added.map Node.Name <+ doubled (keysOf entries) ∧
        ∀ c ∈ added, ∃ v, entries.lookup c.Name = some v ∧
          TreeOrdered (nestedProperties v) c.Children
  | [], _, _, node =>
    ⟨[], by simp [parseProperties, Run.state, Node.extend_nil], by simp [doubled, keysOf],
      by simp⟩
  | (name, value) :: rest, hn, hU, node => by
    rw [JSON.EntriesUnique] at hU
    have hnr : (keysOf rest).Nodup := (List.nodup_cons.mp hn).2
    have hname : name ∉ keysOf rest := (List.nodup_cons.mp hn).1
    obtain ⟨added1, ha1, hn1, hc1⟩ := parseValue_spec value hU.1 node name
    have hfirst : ∀ c ∈ added1, ∃ v, ((name, value) :: rest).lookup c.Name = some v ∧
        TreeOrdered (nestedProperties v) c.Children := by
      intro c hc
      have hcn : c.Name = name := by
        have : c.Name ∈ [name, name] := hn1.subset (List.mem_map_of_mem _ hc)
        simpa using this
      exact ⟨value, by simp [hcn, List.lookup_cons], hc1 c hc⟩
    rw [parseProperties]
    cases hv : parseValue node name value with
    | panicked node1 =>
      rw [hv] at ha1
      refine ⟨added1, by simpa [Run.state] using ha1, ?_, hfirst⟩
      simpa [doubled, keysOf] using hn1.append (List.nil_sublist (doubled (keysOf rest)))
    | returned node1 =>
      rw [hv] at ha1
      simp only [Run.state] at ha1
      obtain ⟨added2, ha2, hn2, hc2⟩ := parseProperties_spec rest hnr hU.2 node1
      refine ⟨added1 ++ added2, ?_, ?_, ?_⟩
      · simp only
        rw [ha2, ha1, Node.extend_extend]
      · simpa [doubled, keysOf] using hn1.append hn2
      · intro c hc
        rcases List.mem_append.mp hc with h | h
        · exact hfirst c h
        · obtain ⟨v, hv', ht⟩ := hc2 c h
          have hne : (c.Name == name) = false := by
            have hmem := lookup_mem_keysOf hv'
            simpa using fun e : c.Name = name => hname (e ▸ hmem)
          exact ⟨v, by simpa [List.lookup_cons, hne] using hv', ht⟩
end

/-- C7: for a decoded schema (ordered maps have pairwise different keys), the
children of the root node built by the loop of `GenerateConfigDocs` are in the
declaration order of the root `properties` at every nesting depth: each
child's name is a key, and if `k1` precedes `k2` among the keys, no child
named `k2` precedes a child named `k1`; the same holds below every node for
the nested `properties` it was built from.  Likewise every node `parseNode`
appends carries the given name and is ordered below. -/
theorem rootNode_ordered (schema orderedRoot : List (String × JSON))
    (hroot : schema.lookup "properties" = some (.object orderedRoot))
    (hU : JSON.UniqueKeys (.object orderedRoot)) :
    TreeOrdered orderedRoot (GenerateConfigDocs_rootNode schema).state.Children ∧
      ∀ (parent : Node) (name : String) (value : List (String × JSON)),
        JSON.UniqueKeys (.object value) →
        ∃ added : List Node,
          (parseNode parent name value).state.Children = parent.Children ++ added ∧
            ∀ c ∈ added, c.Name = name ∧
              TreeOrdered (nestedProperties (.object value)) c.Children := by
  constructor
  · rw [JSON.UniqueKeys] at hU
    obtain ⟨added, ha, han, hac⟩ :=
      parseProperties_spec orderedRoot hU.1 hU.2 (.mk "" "" .null [])
    unfold GenerateConfigDocs_rootNode
    rw [hroot]
    simp only
    rw [ha, Node.children_extend]
    simpa [Node.Children] using treeOrdered_of_added hU.1 han hac
  · intro parent name value hv
    obtain ⟨added, ha, han, hac⟩ := parseValue_spec (.object value) hv parent name
    refine ⟨added, ?_, ?_⟩
    · unfold parseNode
      rw [ha, Node.children_extend]
    · intro c hc
      have : c.Name ∈ [name, name] := han.subset (List.mem_map_of_mem _ hc)
      exact ⟨by simpa using this, hac c hc⟩

/-- Witness for C7: the sample schema, whose root properties are `gui` (with
nested `theme` and `border`) and `git`. -/
theorem rootNode_ordered_witness :
    TreeOrdered sampleRoot (GenerateConfigDocs_rootNode sampleSchema).state.Children ∧
      ∀ (parent : Node) (name : String) (value : List (String × JSON)),
        JSON.UniqueKeys (.object value) →
        ∃ added : List Node,
          (parseNode parent name value).state.Children = parent.Children ++ added ∧
            ∀ c ∈ added, c.Name = name ∧
              TreeOrdered (nestedProperties (.object value)) c.Children :=
  rootNode_ordered sampleSchema sampleRoot rfl (by
    simp [sampleRoot, JSON.UniqueKeys, JSON.EntriesUnique])

/-- The tree built from the sample schema: `gui` is a branch holding the leaves
`theme` and `border`; `git`, whose default is `null`, is a leaf. -/
theorem rootNode_sample :
    GenerateConfigDocs_rootNode sampleSchema = .returned (.mk "" "" .null
      [.mk "gui" "Config relating to the UI" .null
          [.mk "theme" "" (.string "") [], .mk "border" "" (.string "rounded") []],
        .mk "git" "" .null []]) := by
  rfl

/-! ## Splicing: locating the markers -/

theorem index_none_iff (sep : List Nat) :
    ∀ s : List Nat, Index s sep = none ↔ ¬ sep <:+: s
  | [] => by
    cases sep <;> simp [Index, List.isPrefixOf]
  | b :: s => by
    rw [Index, List.infix_cons_iff]
    by_cases hp : sep.isPrefixOf (b :: s) = true
    · have hp' : sep <+: b :: s := List.isPrefixOf_iff_prefix.mp hp
      simp [hp, hp']
    · have hp' : ¬ sep <+: b :: s := fun h => hp (List.isPrefixOf_iff_prefix.mpr h)
      simp [hp, hp', index_none_iff sep s]

theorem firstAt_of_index (sep : List Nat) :
    ∀ (s : List Nat) (i : Nat), Index s sep = some i → FirstAt s sep i
  | [], i, h => by
    rw [Index] at h
    split at h
    · rename_i hp
      cases h
      have hp' : sep <+: [] := List.isPrefixOf_iff_prefix.mp hp
      have hnil : sep = [] := List.prefix_nil.mp hp'
      subst hnil
      exact ⟨by simp, by simp, fun j hj => absurd hj (Nat.not_lt_zero j)⟩
    · cases h
  | b :: s, i, h => by
    rw [Index] at h
    split at h
    · rename_i hp
      cases h
      have hp' : sep <+: b :: s := List.isPrefixOf_iff_prefix.mp hp
      exact ⟨by simpa using hp', by simpa using hp'.length_le,
        fun j hj => absurd hj (Nat.not_lt_zero j)⟩
    · rename_i hp
      have hp' : ¬ sep <+: b :: s := fun h' => hp (List.isPrefixOf_iff_prefix.mpr h')
      cases hi : Index s sep with
      | none => rw [hi] at h; cases h
      | some i' =>
        rw [hi] at h
        simp only [Option.map_some', Option.some.injEq] at h
        subst h
        obtain ⟨h1, h2, h3⟩ := firstAt_of_index sep s i' hi
        refine ⟨by simpa using h1, by simp only [List.length_cons]; omega, ?_⟩
        intro j hj
        cases j with
        | zero => simpa using hp'
        | succ j' => simpa using h3 j' (by omega)

theorem index_of_firstAt (sep : List Nat) :
    ∀ (s : List Nat) (i : Nat), FirstAt s sep i → Index s sep = some i
  | [], i, ⟨h1, h2, _⟩ => by
    have hi : i = 0 := by simp only [List.length_nil] at h2; omega
    subst hi
    have hnil : sep = [] := List.prefix_nil.mp (by simpa using h1)
    subst hnil
    simp [Index]
  | b :: s, 0, ⟨h1, _, _⟩ => by
    have hp : sep.isPrefixOf (b :: s) = true :=
      List.isPrefixOf_iff_prefix.mpr (by simpa using h1)
    simp [Index, hp]
  | b :: s, i + 1, ⟨h1, h2, h3⟩ => by
    have hp : ¬ sep.isPrefixOf (b :: s) = true := fun h =>
      h3 0 (Nat.succ_pos i) (by simpa using List.isPrefixOf_iff_prefix.mp h)
    have ih := index_of_firstAt sep s i
      ⟨by simpa using h1, by simp only [List.length_cons] at h2; omega,
        fun j hj => by simpa using h3 (j + 1) (by omega)⟩
    simp [Index, hp, ih]

/-- The first occurrence is not later than any occurrence. -/
theorem firstAt_le {s sep : List Nat} {i : Nat} (h : FirstAt s sep i) (p q : List Nat)
    (hs : s = p ++ sep ++ q) : i ≤ p.length := by
  by_contra hlt
  refine h.2.2 p.length (by omega) ?_
  subst hs
  simp [List.append_assoc]

theorem infix_drop_append {x p q : List Nat} {n : Nat} (hn : n ≤ p.length) (hx : x <:+: q) :
    x <:+: (p ++ q).drop n := by
  rw [List.drop_append_of_le_length hn]
  exact hx.trans (List.suffix_append (p.drop n) q).isInfix

theorem index_some_of_infix {s sep : List Nat} (h : sep <:+: s) :
    ∃ i, Index s sep = some i ∧ FirstAt s sep i := by
  cases hi : Index s sep with
  | none => exact absurd h ((index_none_iff sep s).mp hi)
  | some i => exact ⟨i, rfl, firstAt_of_index sep s i hi⟩

/-! ## Splicing: the claims -/

/-- When the three markers are located at `i`, `j` (from `i`) and `k` (behind
the opening fence), the file is written with `config` in between. -/
theorem splice_of_firstAt (config markdown : List Nat) (i j k : Nat)
    (h1 : FirstAt markdown (bytesOf "## Default") i)
    (h2 : FirstAt (markdown.drop i) (bytesOf "```yaml") j)
    (h3 : FirstAt (markdown.drop (j + i + 7)) (bytesOf "```") k) :
    splice config markdown =
      .write (markdown.take (j + i + 8) ++ config ++ markdown.drop (k + (j + i + 7))) := by
  have hY : (bytesOf "```yaml").length = 7 := by decide
  have hY8 : (bytesOf "```yaml\n").length = 8 := by decide
  unfold splice
  rw [index_of_firstAt _ _ _ h1]
  simp only
  rw [index_of_firstAt _ _ _ h2]
  simp only [hY, hY8]
  rw [index_of_firstAt _ _ _ h3]

/-- C8: if the file contains `## Default`, later the opening fence and later a
closing fence, then the heading is found at its first occurrence `i`, the
opening fence at its first occurrence `j` from there, and the closing fence at
its first occurrence `k` behind the opening fence; the file after the call is
the original up to the end of that opening fence, some bytes, and the original
from that closing fence on; and unless preprocessing the block panics, the
call writes exactly: the original up to the end of the opening fence, the one
byte behind the fence, the preprocessed block, and the original from the
closing fence on. -/
theorem splice_containment (buffer markdown a b c d : List Nat)
    (h : markdown = a ++ bytesOf "## Default" ++ b ++ bytesOf "```yaml" ++ c
      ++ bytesOf "```" ++ d) :
    ∃ i j k : Nat,
      FirstAt markdown (bytesOf "## Default") i ∧
      FirstAt (markdown.drop i) (bytesOf "```yaml") j ∧
      FirstAt (markdown.drop (j + i + (bytesOf "```yaml").length)) (bytesOf "```") k ∧
      bytesOf "```yaml" <+: markdown.drop (j + i) ∧
      bytesOf "```" <+: markdown.drop (k + (j + i + (bytesOf "```yaml").length)) ∧
      (∃ inner, fileAfter (some markdown) (writeToConfigDocs buffer (some markdown)) =
        some (markdown.take (j + i + (bytesOf "```yaml").length) ++ inner
          ++ markdown.drop (k + (j + i + (bytesOf "```yaml").length)))) ∧
      (∀ config, stripSeparators buffer = some config →
        writeToConfigDocs buffer (some markdown) =
          .write (markdown.take (j + i + (bytesOf "```yaml").length)
            ++ ((markdown[j + i + (bytesOf "```yaml").length]?).toList ++ config)
            ++ markdown.drop (k + (j + i + (bytesOf "```yaml").length)))) := by
  have hH : (bytesOf "## Default").length = 10 := by decide
  have hY : (bytesOf "```yaml").length = 7 := by decide
  -- the heading
  obtain ⟨i, -, hfi⟩ := index_some_of_infix
    (show bytesOf "## Default" <:+: markdown from
      ⟨a, b ++ bytesOf "```yaml" ++ c ++ bytesOf "```" ++ d, by
        rw [h]; simp [List.append_assoc]⟩)
  have hia : i ≤ a.length :=
    firstAt_le hfi a (b ++ bytesOf "```yaml" ++ c ++ bytesOf "```" ++ d)
      (by rw [h]; simp [List.append_assoc])
  -- the opening fence
  have hmd1 : markdown = a ++ (bytesOf "## Default" ++ b ++ bytesOf "```yaml" ++ c
      ++ bytesOf "```" ++ d) := by rw [h]; simp [List.append_assoc]
  have hYin : bytesOf "```yaml" <:+: markdown.drop i := by
    rw [hmd1]
    exact infix_drop_append hia
      ⟨bytesOf "## Default" ++ b, c ++ bytesOf "```" ++ d, by simp [List.append_assoc]⟩
  obtain ⟨j, -, hfj⟩ := index_some_of_infix hYin
  have hja : j ≤ a.length - i + 10 + b.length := by
    have := firstAt_le hfj (a.drop i ++ bytesOf "## Default" ++ b)
      (c ++ bytesOf "```" ++ d)
      (by rw [hmd1, List.drop_append_of_le_length hia]; simp [List.append_assoc])
    simpa [hH, Nat.add_assoc] using this
  -- the closing fence
  have hmd2 : markdown = (a ++ bytesOf "## Default" ++ b ++ bytesOf "```yaml")
      ++ (c ++ bytesOf "```" ++ d) := by rw [h]; simp [List.append_assoc]
  have hFin : bytesOf "```" <:+: markdown.drop (j + i + 7) := by
    rw [hmd2]
    refine infix_drop_append ?_ ⟨c, d, by simp [List.append_assoc]⟩
    simp only [List.length_append, hH, hY]
    omega
  obtain ⟨k, -, hfk⟩ := index_some_of_infix hFin
  have hsplice := fun config => splice_of_firstAt config markdown i j k hfi hfj hfk
  have htake : markdown.take (j + i + 8)
      = markdown.take (j + i + 7) ++ (markdown[j + i + 7]?).toList :=
    List.take_succ
  rw [hY]
  refine ⟨i, j, k, hfi, hfj, hfk, ?_, ?_, ?_, ?_⟩
  · simpa [List.drop_drop, Nat.add_comm] using hfj.1
  · simpa [List.drop_drop, Nat.add_comm, Nat.add_left_comm] using hfk.1
  · unfold writeToConfigDocs
    cases hs : stripSeparators buffer with
    | none =>
      refine ⟨(markdown.drop (j + i + 7)).take k, ?_⟩
      have hdd : markdown.drop (k + (j + i + 7)) = (markdown.drop (j + i + 7)).drop k := by
        simp [List.drop_drop, Nat.add_comm]
      simp only [fileAfter]
      rw [List.append_assoc, hdd, List.take_append_drop, List.take_append_drop]
    | some config =>
      refine ⟨(markdown[j + i + 7]?).toList ++ config, ?_⟩
      simp only [hsplice, fileAfter, htake, List.append_assoc]
  · intro config hs
    unfold writeToConfigDocs
    simp only [hs, hsplice, htake, List.append_assoc]

/-- Witness for C8: a file with a title, the default section with an old
block, and a later section with a block of its own; the later section is
kept. -/
theorem splice_containment_witness :
    writeToConfigDocs (bytesOf "new: 2\n")
        (some (bytesOf "# T\n## Default\n\n```yaml\nold: 1\n```\n## Keep\n```sh\nx\n```\n"))
      = .write (bytesOf "# T\n## Default\n\n```yaml\nnew: 2\n```\n## Keep\n```sh\nx\n```\n") := by
  obtain ⟨i, j, k, hi, hj, hk, -, -, -, hw⟩ := splice_containment (bytesOf "new: 2\n")
    (bytesOf "# T\n## Default\n\n```yaml\nold: 1\n```\n## Keep\n```sh\nx\n```\n")
    (bytesOf "# T\n") (bytesOf "\n\n") (bytesOf "\nold: 1\n")
    (bytesOf "\n## Keep\n```sh\nx\n```\n") (by decide)
  have hi' := index_of_firstAt _ _ _ hi
  have hi4 : i = 4 := by
    have : Index (bytesOf "# T\n## Default\n\n```yaml\nold: 1\n```\n## Keep\n```sh\nx\n```\n")
        (bytesOf "## Default") = some 4 := by decide
    rw [this] at hi'
    exact (Option.some.inj hi').symm
  subst hi4
  have hj' := index_of_firstAt _ _ _ hj
  have hj12 : j = 12 := by
    have : Index ((bytesOf "# T\n## Default\n\n```yaml\nold: 1\n```\n## Keep\n```sh\nx\n```\n").drop 4)
        (bytesOf "```yaml") = some 12 := by decide
    rw [this] at hj'
    exact (Option.some.inj hj').symm
  subst hj12
  have hk' := index_of_firstAt _ _ _ hk
  have hk8 : k = 8 := by
    have : Index ((bytesOf "# T\n## Default\n\n```yaml\nold: 1\n```\n## Keep\n```sh\nx\n```\n").drop
        (12 + 4 + (bytesOf "```yaml").length)) (bytesOf "```") = some 8 := by decide
    rw [this] at hk'
    exact (Option.some.inj hk').symm
  subst hk8
  rw [hw (bytesOf "new: 2\n") (by decide)]
  decide

/-- When the byte after the opening fence is a line feed, the written file is
the original through the fence and that line feed, the block, and the original
from the closing fence on. -/
theorem splice_of_line_break (config markdown : List Nat) (i j k : Nat)
    (h1 : FirstAt markdown (bytesOf "## Default") i)
    (h2 : FirstAt (markdown.drop i) (bytesOf "```yaml") j)
    (h3 : FirstAt (markdown.drop (j + i + 7)) (bytesOf "```") k)
    (hnl : markdown[j + i + 7]? = some 10) :
    splice config markdown =
      .write (markdown.take (j + i + 7) ++ bytesOf "\n" ++ config
        ++ markdown.drop (k + (j + i + 7))) := by
  rw [splice_of_firstAt config markdown i j k h1 h2 h3]
  have htake : markdown.take (j + i + 8)
      = markdown.take (j + i + 7) ++ (markdown[j + i + 7]?).toList :=
    List.take_succ
  rw [htake, hnl]
  rfl

/-- C9 (code as written): in a file whose opening fence line is
`` ```yaml `` followed by a space, the call keeps the space, drops the line
feed that ends the fence line and writes the block right behind the space.
The written file is neither the original through the fence line plus block
plus rest, nor fence plus line feed plus block plus rest. -/
theorem writeToConfigDocs_fence_line_cut :
    stripSeparators (bytesOf "new: 2\n") = some (bytesOf "new: 2\n") ∧
      writeToConfigDocs (bytesOf "new: 2\n")
          (some (bytesOf "## Default\n```yaml \nold: 1\n```\n")) =
        .write (bytesOf "## Default\n```yaml new: 2\n```\n") ∧
      bytesOf "## Default\n```yaml new: 2\n```\n" ≠
        bytesOf "## Default\n```yaml \n" ++ bytesOf "new: 2\n" ++ bytesOf "```\n" ∧
      bytesOf "## Default\n```yaml new: 2\n```\n" ≠
        bytesOf "## Default\n```yaml" ++ bytesOf "\n" ++ bytesOf "new: 2\n"
          ++ bytesOf "```\n" := by
  decide

theorem splice_print_of_missing (config markdown : List Nat)
    (h : ¬ bytesOf "## Default" <:+: markdown ∨
      (∃ i, FirstAt markdown (bytesOf "## Default") i ∧
        ¬ bytesOf "```yaml" <:+: markdown.drop i) ∨
      (∃ i j, FirstAt markdown (bytesOf "## Default") i ∧
        FirstAt (markdown.drop i) (bytesOf "```yaml") j ∧
        ¬ bytesOf "```" <:+: markdown.drop (j + i + 7))) :
    ∃ message, splice config markdown = .print message := by
  have hY : (bytesOf "```yaml").length = 7 := by decide
  unfold splice
  rcases h with h | ⟨i, h1, h⟩ | ⟨i, j, h1, h2, h⟩
  · rw [(index_none_iff _ _).mpr h]
    exact ⟨_, rfl⟩
  · rw [index_of_firstAt _ _ _ h1]
    simp only
    rw [(index_none_iff _ _).mpr h]
    exact ⟨_, rfl⟩
  · rw [index_of_firstAt _ _ _ h1]
    simp only
    rw [index_of_firstAt _ _ _ h2]
    simp only [hY]
    rw [(index_none_iff _ _).mpr h]
    exact ⟨_, rfl⟩

/-- C10: if `## Default` does not occur in the file, or the opening fence does
not occur from its first occurrence on, or the closing fence does not occur
behind the first opening fence found there, then the call writes nothing and
the file is what it was. -/
theorem writeToConfigDocs_missing_marker (buffer markdown : List Nat)
    (h : ¬ bytesOf "## Default" <:+: markdown ∨
      (∃ i, FirstAt markdown (bytesOf "## Default") i ∧
        ¬ bytesOf "```yaml" <:+: markdown.drop i) ∨
      (∃ i j, FirstAt markdown (bytesOf "## Default") i ∧
        FirstAt (markdown.drop i) (bytesOf "```yaml") j ∧
        ¬ bytesOf "```" <:+: markdown.drop (j + i + 7))) :
    (∀ content, writeToConfigDocs buffer (some markdown) ≠ .write content) ∧
      fileAfter (some markdown) (writeToConfigDocs buffer (some markdown))
        = some markdown := by
  unfold writeToConfigDocs
  cases stripSeparators buffer with
  | none => exact ⟨fun _ hc => Effect.noConfusion hc, rfl⟩
  | some config =>
    obtain ⟨message, hm⟩ := splice_print_of_missing config markdown h
    simp only [hm]
    exact ⟨fun _ hc => Effect.noConfusion hc, rfl⟩

/-- Witness for C10: a file with the heading and an opening fence that is
never closed. -/
theorem writeToConfigDocs_missing_marker_witness :
    (∀ content, writeToConfigDocs (bytesOf "new: 2\n")
        (some (bytesOf "## Default\n~~~yaml\nold: 1\n")) ≠ .write content) ∧
      fileAfter (some (bytesOf "## Default\n~~~yaml\nold: 1\n"))
          (writeToConfigDocs (bytesOf "new: 2\n")
            (some (bytesOf "## Default\n~~~yaml\nold: 1\n")))
        = some (bytesOf "## Default\n~~~yaml\nold: 1\n") :=
  writeToConfigDocs_missing_marker (bytesOf "new: 2\n")
    (bytesOf "## Default\n~~~yaml\nold: 1\n")
    (Or.inr (Or.inl ⟨0, firstAt_of_index _ _ 0 (by decide), by decide⟩))

/-! ## The standalone script: lookup miss -/

/-- C17 (code as written): in the script, the non-nil field `Names` of
`Config{Names: []string{"a"}}` finds its definition `Config`, but `Names` is
not a key of the definition's properties (they are `hook` and `names`); the
walk panics on the nil property instead of skipping the field.  Where the key
exists, the same walk returns and sets the default. -/
theorem scriptSetDefaultVals_miss_panics :
    Main.setDefaultVals (some namesConfig) hookSchema = .panicked hookSchema ∧
      Main.setDefaultVals (some namesConfig) namesFieldSchema
        = .returned namesFieldSchemaSet := by
  constructor <;> rfl

/-- The script starts `isNil` at `true` as well: the zero values of int, bool
and string fields are skipped there, too. -/
theorem scriptSetDefaultVals_zero_scalars :
    Main.setDefaultVals (some (.ptr (some zeroConfig))) zeroConfigSchema
      = .returned zeroConfigSchema := by
  rfl

/-- In the script every lookup miss of a field that reaches the lookup is a
panic: the definition exists, the key is not among its properties. -/
theorem scriptSetDefault_miss (parentKey key : String) (value : Any) (schema : Schema)
    (definition : Definition)
    (hdef : schema.Definitions.lookup parentKey = some definition)
    (hmiss : definition.Properties.lookup key = none) :
    Main.setDefault parentKey key value schema = .panicked schema := by
  unfold Main.setDefault
  rw [hdef]
  simp only
  rw [hmiss]

/-! ## Default injection: the frame -/

/-- C19: the walk changes nothing in the schema except defaults that were
unset.  Position by position, the definitions keep their names and order,
each definition keeps its field-name-to-property-name mapping, its properties
keep their names and order, and each property keeps its description, its type
and, if it had one, its default (`Schema.Fills`); in particular the lists of
definition names before and after are equal. -/
theorem setDefaultVals_frame (defaults : Any) (schema : Schema) :
    Schema.Fills schema (setDefaultVals defaults schema).state ∧
      (setDefaultVals defaults schema).state.Definitions.map Prod.fst
        = schema.Definitions.map Prod.fst := by
  have h := setDefaultVals_fills defaults schema
  refine ⟨h, ?_⟩
  unfold Schema.Fills KeyRel at h
  generalize (setDefaultVals defaults schema).state.Definitions = after at h
  generalize schema.Definitions = before at h
  induction h with
  | nil => rfl
  | cons hab _ ih => simp [hab.1, ih]

/-! ## The schema file -/

/-- C13 (code as written): for every root directory the path the docs run
reads (`<root>/schema/config.json`) differs from the path the schema run
writes (`<root>/schema/schema.json`); after a schema run on a disk without
other files, the read of the docs run finds no file, for every root and every
schema. -/
theorem schema_paths_differ :
    (∀ lazyRoot : String, GenerateSchema_path lazyRoot ≠ GenerateConfigDocs_path lazyRoot) ∧
      ∀ (lazyRoot : String) (obj : List Nat),
        GenerateConfigDocs_read lazyRoot (GenerateSchema_write lazyRoot obj []) = none := by
  have hne : ∀ lazyRoot : String,
      GenerateSchema_path lazyRoot ≠ GenerateConfigDocs_path lazyRoot := by
    intro lazyRoot h
    unfold GenerateSchema_path GenerateConfigDocs_path at h
    have hdata := congrArg String.data h
    rw [String.data_append, String.data_append] at hdata
    have := List.append_cancel_left hdata
    revert this
    decide
  refine ⟨hne, ?_⟩
  intro lazyRoot obj
  unfold GenerateConfigDocs_read GenerateSchema_write
  have hb : (GenerateConfigDocs_path lazyRoot == GenerateSchema_path lazyRoot) = false := by
    simpa using fun e => hne lazyRoot e.symm
  simp [List.lookup_cons, hb]

/-! ## Preprocessing of the serialized block -/

theorem splitLines_ne_nil : ∀ s : List Nat, splitLines s ≠ []
  | [] => by simp [splitLines]
  | b :: rest => by
    unfold splitLines
    split
    · simp
    · split <;> simp

/-- Joining the lines of a block with line feeds gives the block back. -/
theorem joinLines_splitLines : ∀ s : List Nat, joinLines (splitLines s) = s
  | [] => rfl
  | b :: rest => by
    have ih := joinLines_splitLines rest
    unfold splitLines
    by_cases hb : b = 10
    · simp only [hb, if_true]
      cases hs : splitLines rest with
      | nil => exact absurd hs (splitLines_ne_nil rest)
      | cons line lines =>
        rw [hs] at ih
        simp [joinLines, ih]
    · simp only [hb, if_false]
      cases hs : splitLines rest with
      | nil => exact absurd hs (splitLines_ne_nil rest)
      | cons line lines =>
        rw [hs] at ih
        cases lines with
        | nil => simpa [joinLines] using ih
        | cons next more =>
          simp only [joinLines] at ih ⊢
          simp [ih]

/-- No line of a split block contains a line feed. -/
theorem splitLines_no_feed : ∀ (s : List Nat), ∀ line ∈ splitLines s, 10 ∉ line
  | [], line, h => by
    simp [splitLines] at h
    simp [h]
  | b :: rest, line, h => by
    have ih := splitLines_no_feed rest
    unfold splitLines at h
    by_cases hb : b = 10
    · simp only [hb, if_true, List.mem_cons] at h
      rcases h with h | h
      · simp [h]
      · exact ih line h
    · simp only [hb, if_false] at h
      cases hs : splitLines rest with
      | nil => exact absurd hs (splitLines_ne_nil rest)
      | cons first lines =>
        rw [hs] at h ih
        simp only [List.mem_cons] at h
        rcases h with h | h
        · subst h
          have := ih first (List.mem_cons_self _ _)
          simp only [List.mem_cons, not_or]
          exact ⟨fun e => hb e.symm, this⟩
        · exact ih line (List.mem_cons_of_mem _ h)

theorem splitLines_append_feed (line : List Nat) (h : 10 ∉ line) (s : List Nat) :
    splitLines (line ++ 10 :: s) = line :: splitLines s := by
  induction line with
  | nil => simp [splitLines]
  | cons b rest ih =>
    have hb : b ≠ 10 := fun e => h (by simp [e])
    have hrest : 10 ∉ rest := fun e => h (List.mem_cons_of_mem _ e)
    simp only [List.cons_append]
    rw [splitLines]
    simp only [hb, if_false, ih hrest]

theorem splitLines_of_no_feed (line : List Nat) (h : 10 ∉ line) : splitLines line = [line] := by
  induction line with
  | nil => rfl
  | cons b rest ih =>
    have hb : b ≠ 10 := fun e => h (by simp [e])
    have hrest : 10 ∉ rest := fun e => h (List.mem_cons_of_mem _ e)
    rw [splitLines]
    simp only [hb, if_false, ih hrest]

/-- Splitting what was joined gives the lines back, when no line holds a line
feed and there is at least one line. -/
theorem splitLines_joinLines :
    ∀ lines : List (List Nat), lines ≠ [] → (∀ line ∈ lines, 10 ∉ line) →
      splitLines (joinLines lines) = lines
  | [], h, _ => absurd rfl h
  | [line], _, hf => by
    simpa [joinLines] using splitLines_of_no_feed line (hf line (List.mem_cons_self _ _))
  | line :: next :: rest, _, hf => by
    rw [joinLines, splitLines_append_feed line (hf line (List.mem_cons_self _ _)),
      splitLines_joinLines (next :: rest) (by simp)
        (fun l hl => hf l (List.mem_cons_of_mem _ hl))]

theorem foldl_terminated (lines : List (List Nat)) :
    ∀ acc : List Nat, lines ≠ [] →
      lines.foldl (fun acc line => acc ++ (line ++ bytesOf "\n")) acc
        = acc ++ joinLines lines ++ [10] := by
  induction lines with
  | nil => intro acc h; exact absurd rfl h
  | cons line rest ih =>
    intro acc _
    cases rest with
    | nil =>
      have : bytesOf "\n" = [10] := by decide
      simp [joinLines, this]
    | cons next more =>
      rw [List.foldl_cons, ih _ (by simp)]
      have : bytesOf "\n" = [10] := by decide
      simp [joinLines, this, List.append_assoc]

/-- The preprocessing in closed form: the kept lines joined with line feeds;
it panics exactly when no line is kept. -/
theorem stripSeparators_eq (buffer : List Nat) :
    stripSeparators buffer =
      if (splitLines buffer).filter keptLine = [] then none
      else some (joinLines ((splitLines buffer).filter keptLine)) := by
  unfold stripSeparators
  have hk : (fun line => TrimSpace line != bytesOf "---") = keptLine := rfl
  simp only [hk]
  by_cases hnil : (splitLines buffer).filter keptLine = []
  · simp [hnil]
  · simp only [hnil, if_false]
    rw [foldl_terminated _ [] hnil]
    simp

/-- C14: for a block with at least one line that does not trim to `---`, the
preprocessed block is the lines of the block without those that trim to
`---`, joined with line feeds (none after the last line); a block without
such a separator line is returned unchanged; and no line of the result trims
to `---`. -/
theorem stripSeparators_spec (buffer : List Nat)
    (h : ∃ line ∈ splitLines buffer, TrimSpace line ≠ bytesOf "---") :
    stripSeparators buffer
        = some (joinLines ((splitLines buffer).filter
            (fun line => TrimSpace line != bytesOf "---"))) ∧
      ((∀ line ∈ splitLines buffer, TrimSpace line ≠ bytesOf "---") →
        stripSeparators buffer = some buffer) ∧
      ∀ config, stripSeparators buffer = some config →
        ∀ line ∈ splitLines config, TrimSpace line ≠ bytesOf "---" := by
  have hk : (fun line => TrimSpace line != bytesOf "---") = keptLine := rfl
  rw [hk]
  have hne : (splitLines buffer).filter keptLine ≠ [] := by
    obtain ⟨line, hmem, hkeep⟩ := h
    intro hnil
    have : line ∈ (splitLines buffer).filter keptLine :=
      List.mem_filter.mpr ⟨hmem, by simpa [keptLine] using hkeep⟩
    rw [hnil] at this
    cases this
  have heq : stripSeparators buffer
      = some (joinLines ((splitLines buffer).filter keptLine)) := by
    rw [stripSeparators_eq]
    simp [hne]
  refine ⟨heq, ?_, ?_⟩
  · intro hall
    have hfilter : (splitLines buffer).filter keptLine = splitLines buffer :=
      List.filter_eq_self.mpr (fun line hl => by simpa [keptLine] using hall line hl)
    rw [heq, hfilter, joinLines_splitLines]
  · intro config hc line hl
    rw [heq] at hc
    cases hc
    rw [splitLines_joinLines _ hne
      (fun l hlm => splitLines_no_feed buffer l (List.mem_filter.mp hlm).1)] at hl
    simpa [keptLine] using (List.mem_filter.mp hl).2

/-- Witness for C14: a block of two documents with a separator between. -/
theorem stripSeparators_spec_witness :
    stripSeparators (bytesOf "a: 1\n---\nb: 2\n") = some (bytesOf "a: 1\nb: 2\n") :=
  (stripSeparators_spec (bytesOf "a: 1\n---\nb: 2\n")
    ⟨bytesOf "a: 1", by decide, by decide⟩).1.trans (by decide)

/-! ## Serialization of the documentation tree -/

/-- C11 (code as written): for a node without default and without children,
whatever its name and description and whatever the encoder, `MarshalYAML`
returns a mapping with empty content; the key node is not part of it.  This
includes the leaf built from `"default": null`. -/
theorem marshalYAML_empty_node :
    (∀ (encode : JSON → Option YamlNode) (name description : String),
      Node.MarshalYAML encode (.mk name description .null [])
        = some (.mk .MappingNode "" "" "" [])) ∧
      (Node.MarshalYAML sampleEncode (.mk "foo" "doc" .null [])).map YamlNode.Content
        = some [] := by
  refine ⟨fun encode name description => ?_, rfl⟩
  rw [Node.MarshalYAML]

/-- A node with a default, or with children, serializes (if at all) to a
mapping whose content starts with its key node. -/
theorem marshalYAML_key (encode : JSON → Option YamlNode) (n : Node) (y : YamlNode)
    (hn : n.Default ≠ .null ∨ n.Children ≠ [])
    (hy : Node.MarshalYAML encode n = some y) :
    y.Kind = .MappingNode ∧ y.Content.head? = some (keyNode n.Name n.Description) := by
  obtain ⟨name, description, default, children⟩ := n
  cases default with
  | null =>
    cases children with
    | nil => simp [Node.Default, Node.Children] at hn
    | cons child rest =>
      rw [Node.MarshalYAML] at hy
      cases hc : Node.childrenContent encode (child :: rest) with
      | none => rw [hc] at hy; cases hy
      | some content =>
        rw [hc] at hy
        cases hy
        exact ⟨rfl, rfl⟩
  | bool _ | number _ | string _ | array _ | object _ =>
    rw [Node.MarshalYAML] at hy
    · split at hy
      · cases hy
      · cases hy
        exact ⟨rfl, rfl⟩
    all_goals simp

theorem childrenContent_of_results (encode : JSON → Option YamlNode) :
    ∀ (children : List Node) (childYamls : List YamlNode),
      List.Forall₂ (fun c y => Node.MarshalYAML encode c = some y) children childYamls →
      Node.childrenContent encode children = some (contentsOf childYamls)
  | [], _, h => by
    cases h
    simp [Node.childrenContent, contentsOf]
  | child :: rest, _, h => by
    cases h with
    | cons hc hrest =>
      rw [Node.childrenContent, hc]
      simp only
      rw [childrenContent_of_results encode rest _ hrest]
      rfl

/-- C12: for a node without default whose children are not empty and each
serialize to a result of their own, `MarshalYAML` returns a mapping of exactly
two content elements: the key node of the node and a nested mapping whose
content is the concatenation, in child order, of the contents of the
children's results. -/
theorem marshalYAML_branch (encode : JSON → Option YamlNode) (name description : String)
    (children : List Node) (childYamls : List YamlNode)
    (hne : children ≠ [])
    (hch : List.Forall₂ (fun c y => Node.MarshalYAML encode c = some y) children childYamls) :
    Node.MarshalYAML encode (.mk name description .null children) =
      some (.mk .MappingNode "" "" ""
        [keyNode name description, .mk .MappingNode "" "" "" (contentsOf childYamls)]) := by
  cases children with
  | nil => exact absurd rfl hne
  | cons child rest =>
    rw [Node.MarshalYAML, childrenContent_of_results encode _ _ hch]

/-- Witness for C12: the branch `gui` with a leaf and an empty node. -/
theorem marshalYAML_branch_witness :
    Node.MarshalYAML sampleEncode sampleBranch =
      some (.mk .MappingNode "" "" ""
        [keyNode "gui" "Config relating to the UI",
          .mk .MappingNode "" "" ""
            [keyNode "theme" "The theme", .mk .ScalarNode "!!str" "dark" "" []]]) :=
  marshalYAML_branch sampleEncode "gui" "Config relating to the UI"
    [.mk "theme" "The theme" (.string "dark") [], .mk "border" "" .null []]
    [.mk .MappingNode "" "" ""
        [keyNode "theme" "The theme", .mk .ScalarNode "!!str" "dark" "" []],
      .mk .MappingNode "" "" "" []]
    (by simp)
    (List.Forall₂.cons rfl (List.Forall₂.cons rfl List.Forall₂.nil))

/-- A node with a default serializes to its key node and the encoding of the
default; the children are not looked at. -/
theorem marshalYAML_default (encode : JSON → Option YamlNode) (name description : String)
    (default : JSON) (children : List Node) (hd : default ≠ .null) :
    Node.MarshalYAML encode (.mk name description default children) =
      (encode default).map
        (fun valueNode => .mk .MappingNode "" "" "" [keyNode name description, valueNode]) := by
  cases default with
  | null => exact absurd rfl hd
  | bool _ | number _ | string _ | array _ | object _ =>
    simp only [Node.MarshalYAML]
    split <;> rename_i h <;> simp [h]

mutual
/-- With an encoder that does not fail, `MarshalYAML` returns a node for every
tree. -/
theorem marshalYAML_total (encode : JSON → Option YamlNode)
    (henc : ∀ j, ∃ y, encode j = some y) :
    ∀ n : Node, ∃ y, Node.MarshalYAML encode n = some y
  | .mk _ _ .null [] => ⟨_, by rw [Node.MarshalYAML]⟩
  | .mk name description .null (child :: rest) => by
    obtain ⟨content, hc⟩ := childrenContent_total encode henc (child :: rest)
    exact ⟨_, by rw [Node.MarshalYAML, hc]⟩
  | .mk name description (.bool b) children => by
    obtain ⟨y, hy⟩ := henc (.bool b)
    exact ⟨_, by rw [marshalYAML_default _ _ _ _ _ (by simp), hy]; rfl⟩
  | .mk name description (.number b) children => by
    obtain ⟨y, hy⟩ := henc (.number b)
    exact ⟨_, by rw [marshalYAML_default _ _ _ _ _ (by simp), hy]; rfl⟩
  | .mk name description (.string b) children => by
    obtain ⟨y, hy⟩ := henc (.string b)
    exact ⟨_, by rw [marshalYAML_default _ _ _ _ _ (by simp), hy]; rfl⟩
  | .mk name description (.array b) children => by
    obtain ⟨y, hy⟩ := henc (.array b)
    exact ⟨_, by rw [marshalYAML_default _ _ _ _ _ (by simp), hy]; rfl⟩
  | .mk name description (.object b) children => by
    obtain ⟨y, hy⟩ := henc (.object b)
    exact ⟨_, by rw [marshalYAML_default _ _ _ _ _ (by simp), hy]; rfl⟩
/-- With an encoder that does not fail, the loop over the children returns
their contents. -/
theorem childrenContent_total (encode : JSON → Option YamlNode)
    (henc : ∀ j, ∃ y, encode j = some y) :
    ∀ children : List Node, ∃ content, Node.childrenContent encode children = some content
  | [] => ⟨[], by rw [Node.childrenContent]⟩
  | child :: rest => by
    obtain ⟨y, hy⟩ := marshalYAML_total encode henc child
    obtain ⟨more, hm⟩ := childrenContent_total encode henc rest
    exact ⟨_, by rw [Node.childrenContent, hy]; simp only; rw [hm]⟩
end

/-! ## Leaves and branches -/

theorem allNeverBoth_append :
    ∀ a b : List Node, Node.AllNeverBoth (a ++ b) ↔ Node.AllNeverBoth a ∧ Node.AllNeverBoth b
  | [], b => by simp [Node.AllNeverBoth]
  | c :: a, b => by
    simp [Node.AllNeverBoth, allNeverBoth_append a b, and_assoc]

theorem appendLeaf_neverBoth (parent : Node) (name description : String) (r : Option JSON) :
    ∃ leaves : List Node, appendLeaf parent name description r = parent.extend leaves ∧
      Node.AllNeverBoth leaves := by
  cases r with
  | none => exact ⟨[], by simp [appendLeaf, Node.extend_nil], by simp [Node.AllNeverBoth]⟩
  | some d =>
    exact ⟨[.mk name description d []], by simp [appendLeaf, Node.appendChild_eq_extend],
      by simp [Node.AllNeverBoth, Node.NeverBoth]⟩

mutual
/-- The nodes `parseNode` appends, and all nodes below them, never have both a
default and children. -/
theorem parseValue_neverBoth :
    ∀ (v : JSON) (parent : Node) (name : String),
      ∃ added : List Node, (parseValue parent name v).state = parent.extend added ∧
        Node.AllNeverBoth added
  | .object value, parent, name => by
    rw [parseValue]
    cases hd : getDescription value with
    | none => exact ⟨[], by simp [Run.state, Node.extend_nil], by simp [Node.AllNeverBoth]⟩
    | some description =>
      simp only
      cases hr : getDefault value with
      | none => exact ⟨[], by simp [Run.state, Node.extend_nil], by simp [Node.AllNeverBoth]⟩
      | some result =>
        simp only
        obtain ⟨leaves, hl, hln⟩ := appendLeaf_neverBoth parent name description result
        obtain ⟨added, ha, han⟩ :=
          parseBranch_neverBoth value (appendLeaf parent name description result) name
            description
        exact ⟨leaves ++ added, by rw [ha, hl, Node.extend_extend],
          (allNeverBoth_append _ _).mpr ⟨hln, han⟩⟩
  | .null, parent, _ | .bool _, parent, _ | .number _, parent, _
  | .string _, parent, _ | .array _, parent, _ =>
    ⟨[], by simp [parseValue, Run.state, Node.extend_nil], by simp [Node.AllNeverBoth]⟩
/-- The node the branch step appends never has both, nor has any node below. -/
theorem parseBranch_neverBoth :
    ∀ (entries : List (String × JSON)) (parent : Node) (name description : String),
      ∃ added : List Node,
        (parseBranch parent name description entries).state = parent.extend added ∧
        Node.AllNeverBoth added
  | [], parent, _, _ =>
    ⟨[], by simp [parseBranch, Run.state, Node.extend_nil], by simp [Node.AllNeverBoth]⟩
  | (key, .object orderedProperties) :: rest, parent, name, description => by
    by_cases hk : key = "properties"
    · obtain ⟨added, ha, han⟩ :=
        parseProperties_neverBoth orderedProperties (.mk name description .null [])
      refine ⟨[(parseProperties (.mk name description .null []) orderedProperties).state],
        ?_, ?_⟩
      · simp only [parseBranch, hk, if_true]
        cases parseProperties (.mk name description .null []) orderedProperties <;>
          simp [Run.state, Node.appendChild_eq_extend]
      · rw [ha]
        simpa [Node.AllNeverBoth, Node.NeverBoth, Node.extend] using han
    · obtain ⟨added, ha, han⟩ := parseBranch_neverBoth rest parent name description
      exact ⟨added, by simpa only [parseBranch, hk, if_false] using ha, han⟩
  | (key, .null) :: rest, parent, name, description
  | (key, .bool _) :: rest, parent, name, description
  | (key, .number _) :: rest, parent, name, description
  | (key, .string _) :: rest, parent, name, description
  | (key, .array _) :: rest, parent, name, description => by
    by_cases hk : key = "properties"
    · exact ⟨[], by simp [parseBranch, hk, Run.state, Node.extend_nil],
        by simp [Node.AllNeverBoth]⟩
    · obtain ⟨added, ha, han⟩ := parseBranch_neverBoth rest parent name description
      exact ⟨added, by simpa only [parseBranch, hk, if_false] using ha, han⟩
/-- The nodes the loop over an ordered map appends never have both, nor has any
node below. -/
theorem parseProperties_neverBoth :
    ∀ (entries : List (String × JSON)) (node : Node),
      ∃ added : List Node, (parseProperties node entries).state = node.extend added ∧
        Node.AllNeverBoth added
  | [], node =>
    ⟨[], by simp [parseProperties, Run.state, Node.extend_nil], by simp [Node.AllNeverBoth]⟩
  | (name, value) :: rest, node => by
    obtain ⟨added1, ha1, hn1⟩ := parseValue_neverBoth value node name
    rw [parseProperties]
    cases hv : parseValue node name value with
    | panicked node1 =>
      rw [hv] at ha1
      exact ⟨added1, by simpa [Run.state] using ha1, hn1⟩
    | returned node1 =>
      rw [hv] at ha1
      simp only [Run.state] at ha1
      obtain ⟨added2, ha2, hn2⟩ := parseProperties_neverBoth rest node1
      exact ⟨added1 ++ added2, by simp only; rw [ha2, ha1, Node.extend_extend],
        (allNeverBoth_append _ _).mpr ⟨hn1, hn2⟩⟩
end

/-- C15, counterexample: the property `gui` has the sub-property `a` and no
renderable default, yet the node built for it has neither a default nor
children (`a`, of type object without default, yields no node). -/
theorem parseNode_neither_with_subproperty :
    parseNode (.mk "" "" .null []) "gui"
        [("properties", .object [("a", .object [("type", .string "object")])])]
      = .returned (.mk "" "" .null [.mk "gui" "" .null []]) := by
  rfl

/-- C15, amended: for every schema, no node of the tree built by
`GenerateConfigDocs` has both a default and children, at any depth; and the
nodes `parseNode` appends to a parent, with all nodes below them, never have
both: each is a leaf without children or a branch without default (and may
have neither). -/
theorem tree_neverBoth (schema : List (String × JSON)) :
    Node.AllNeverBoth (GenerateConfigDocs_rootNode schema).state.Children ∧
      ∀ (parent : Node) (name : String) (value : List (String × JSON)),
        ∃ added : List Node,
          (parseNode parent name value).state.Children = parent.Children ++ added ∧
            Node.AllNeverBoth added := by
  constructor
  · unfold GenerateConfigDocs_rootNode
    split
    · rename_i orderedRoot _
      obtain ⟨added, ha, han⟩ := parseProperties_neverBoth orderedRoot (.mk "" "" .null [])
      rw [ha, Node.children_extend]
      simpa [Node.Children] using han
    · simp [Run.state, Node.Children, Node.AllNeverBoth]
  · intro parent name value
    obtain ⟨added, ha, han⟩ := parseValue_neverBoth (.object value) parent name
    exact ⟨added, by unfold parseNode; rw [ha, Node.children_extend], han⟩

/-- C16, counterexample: the property has a `properties` entry and no
renderable default (no `default`, and a `type` given as a list); `parseNode`
panics at the type assertion of `getDefault` and appends nothing, not one
branch node.  And a property with the renderable default `1` and a
`properties` entry that is not an ordered map gets the leaf and then a panic:
one node, not two. -/
theorem parseNode_malformed_entries :
    parseNode (.mk "" "" .null []) "n"
        [("type", .array [.string "object", .string "null"]), ("properties", .object [])]
      = .panicked (.mk "" "" .null []) ∧
    parseNode (.mk "" "" .null []) "n" [("default", .number "1"), ("properties", .number "5")]
      = .panicked (.mk "" "" .null [.mk "n" "" (.number "1") []]) := by
  constructor <;> rfl

/-- C16, amended: when the `description` and `type` entries of a property are
strings where present, `parseNode` appends to the parent's children: the leaf
with the renderable default and then the branch built from the nested
properties, both with the property's name and description, if the property
has a renderable default and a `properties` entry that is an ordered map; the
branch alone if it has such a `properties` entry and no renderable default;
nothing if it has neither. -/
theorem parseNode_leaf_and_branch (parent : Node) (name : String)
    (value : List (String × JSON))
    (hdesc : ∀ j, value.lookup "description" = some j → ∃ s, j = .string s)
    (htype : ∀ j, value.lookup "type" = some j → ∃ s, j = .string s) :
    (∀ d props, renderableDefault value = some d →
        value.lookup "properties" = some (.object props) →
        (parseNode parent name value).state.Children =
          parent.Children ++
            [.mk name (describedAs value) d [], branchNode name (describedAs value) props]) ∧
      (∀ props, renderableDefault value = none →
        value.lookup "properties" = some (.object props) →
        (parseNode parent name value).state.Children =
          parent.Children ++ [branchNode name (describedAs value) props]) ∧
      (renderableDefault value = none → value.lookup "properties" = none →
        (parseNode parent name value).state.Children = parent.Children) := by
  have hmain := parseNode_children parent name value hdesc htype
  have hbranch : ∀ props, value.lookup "properties" = some (.object props) →
      branchNodes name (describedAs value) value
        = [branchNode name (describedAs value) props] := by
    intro props hp
    unfold branchNodes branchNode
    rw [parseBranch_unfold, hp]
    simp only
    obtain ⟨added, ha, -⟩ :=
      parseProperties_neverBoth props (.mk name (describedAs value) .null [])
    cases hrun : parseProperties (.mk name (describedAs value) .null []) props with
    | returned node =>
      rw [hrun] at ha
      simp only [Run.state] at ha ⊢
      rw [Node.children_appendChild, ha]
      simp [Node.Children, Node.extend]
    | panicked node =>
      rw [hrun] at ha
      simp only [Run.state] at ha ⊢
      rw [Node.children_appendChild, ha]
      simp [Node.Children, Node.extend]
  have hnone : value.lookup "properties" = none →
      branchNodes name (describedAs value) value = [] := by
    intro hp
    unfold branchNodes
    rw [parseBranch_unfold, hp]
    rfl
  refine ⟨?_, ?_, ?_⟩
  · intro d props hd hp
    rw [hmain, hd, hbranch props hp]
    simp
  · intro props hd hp
    rw [hmain, hd, hbranch props hp]
    simp
  · intro hd hp
    rw [hmain, hd, hnone hp]
    simp

/-- Witness for C16: the property `gui` of the sample schema extended by a
default: a leaf with the default and a branch with the leaves `theme` and
`border`. -/
theorem parseNode_leaf_and_branch_witness :
    (parseNode (.mk "" "" .null []) "gui"
        [("default", .string "x"),
          ("properties", .object
            [("theme", .object [("type", .string "string")]),
              ("border", .object [("default", .string "rounded")])])]).state.Children =
      [.mk "gui" "" (.string "x") [],
        .mk "gui" "" .null
          [.mk "theme" "" (.string "") [], .mk "border" "" (.string "rounded") []]] :=
  (parseNode_leaf_and_branch (.mk "" "" .null []) "gui"
    [("default", .string "x"),
      ("properties", .object
        [("theme", .object [("type", .string "string")]),
          ("border", .object [("default", .string "rounded")])])]
    (fun j h => by simp [List.lookup_cons] at h)
    (fun j h => by simp [List.lookup_cons] at h)).1 (.string "x")
    [("theme", .object [("type", .string "string")]),
      ("border", .object [("default", .string "rounded")])] rfl rfl

/-! ## Splicing twice -/

/-- Whether `sep` starts at index `p` depends only on the bytes before
`p + sep.length`. -/
theorem prefix_drop_congr {l l' sep : List Nat} {n p : Nat} (hagree : l.take n = l'.take n)
    (hp : p + sep.length ≤ n) : sep <+: l.drop p ↔ sep <+: l'.drop p := by
  have key : ∀ m : List Nat, sep <+: m.drop p ↔ sep <+: (m.take n).drop p := by
    intro m
    have h1 : (m.take n).drop p = (m.drop p).take (n - p) := by
      rw [List.take_drop]
      congr 2
      omega
    rw [h1, List.prefix_take_iff]
    constructor
    · intro h
      exact ⟨h, by omega⟩
    · intro h
      exact h.1
  rw [key l, key l', hagree]

/-- A first occurrence that ends within the first `n` bytes is a first
occurrence in every list with the same first `n` bytes. -/
theorem firstAt_congr {l l' sep : List Nat} {n i : Nat} (hagree : l.take n = l'.take n)
    (hn : n ≤ l.length) (hi : i + sep.length ≤ n) (h : FirstAt l sep i) :
    FirstAt l' sep i := by
  have hlen : n ≤ l'.length := by
    have h1 : (l.take n).length = n := List.length_take_of_le hn
    rw [hagree, List.length_take] at h1
    omega
  refine ⟨(prefix_drop_congr hagree hi).mp h.1, by omega, ?_⟩
  intro p hp hpre
  exact h.2.2 p hp ((prefix_drop_congr hagree (by omega)).mpr hpre)

/-- Behind a stretch `pre` free of the byte `c`, a pattern starting with `c`
that `rest` begins with occurs first right behind `pre`. -/
theorem firstAt_behind {pre rest sep : List Nat} {c : Nat} (tail : List Nat)
    (hsep : sep = c :: tail) (hclean : c ∉ pre) (hrest : sep <+: rest) :
    FirstAt (pre ++ rest) sep pre.length := by
  refine ⟨by simpa using hrest, ?_, ?_⟩
  · have := hrest.length_le
    simp only [List.length_append]
    omega
  · intro p hp hpre
    rw [List.drop_append_of_le_length (by omega)] at hpre
    cases hd : pre.drop p with
    | nil =>
      have : pre.length ≤ p := List.drop_eq_nil_iff.mp hd
      omega
    | cons x xs =>
      rw [hd, hsep] at hpre
      have hx : x ∈ pre := List.mem_of_mem_drop (by rw [hd]; exact List.mem_cons_self _ _)
      obtain ⟨t, ht⟩ := hpre
      simp only [List.cons_append] at ht
      have hcx : c = x := (List.cons.inj ht).1
      exact hclean (hcx ▸ hx)

/-- The opening fence does not start inside the heading. -/
theorem fence_behind_heading {l : List Nat} {j : Nat}
    (hH : bytesOf "## Default" <+: l) (hY : bytesOf "```yaml" <+: l.drop j) : 10 ≤ j := by
  by_contra hlt
  have hj : j < 10 := by omega
  obtain ⟨t, rfl⟩ := hH
  have hH' : bytesOf "## Default" = [35, 35, 32, 68, 101, 102, 97, 117, 108, 116] := by decide
  have hY' : bytesOf "```yaml" = [96, 96, 96, 121, 97, 109, 108] := by decide
  rw [hH', hY'] at hY
  obtain ⟨u, hu⟩ := hY
  interval_cases j <;> simp at hu

/-- Splicing a block free of backticks into a file whose opening fence is
followed by a line feed gives a file in which the same splice changes
nothing. -/
theorem splice_twice (config markdown : List Nat) (i j k : Nat)
    (h1 : FirstAt markdown (bytesOf "## Default") i)
    (h2 : FirstAt (markdown.drop i) (bytesOf "```yaml") j)
    (h3 : FirstAt (markdown.drop (j + i + 7)) (bytesOf "```") k)
    (hnl : markdown[j + i + 7]? = some 10)
    (hclean : 96 ∉ config) :
    ∃ spliced, splice config markdown = .write spliced ∧
      splice config spliced = .write spliced := by
  have hF : bytesOf "```" = 96 :: [96, 96] := by decide
  have hHlen : (bytesOf "## Default").length = 10 := by decide
  have hYlen : (bytesOf "```yaml").length = 7 := by decide
  have hj : 10 ≤ j := fence_behind_heading h1.1 h2.1
  have hlt : j + i + 7 < markdown.length := by
    rcases Nat.lt_or_ge (j + i + 7) markdown.length with h | h
    · exact h
    · rw [List.getElem?_eq_none h] at hnl
      cases hnl
  have htl : (markdown.take (j + i + 8)).length = j + i + 8 :=
    List.length_take_of_le (by omega)
  have htake : markdown.take (j + i + 8) = markdown.take (j + i + 7) ++ [10] := by
    have : markdown.take (j + i + 7 + 1)
        = markdown.take (j + i + 7) ++ (markdown[j + i + 7]?).toList := List.take_succ
    rw [hnl] at this
    exact this
  have hS : bytesOf "```" <+: markdown.drop (k + (j + i + 7)) := by
    have := h3.1
    rwa [List.drop_drop, Nat.add_comm (j + i + 7) k] at this
  refine ⟨markdown.take (j + i + 8) ++ config ++ markdown.drop (k + (j + i + 7)),
    splice_of_firstAt config markdown i j k h1 h2 h3, ?_⟩
  generalize hsp : markdown.take (j + i + 8) ++ config ++ markdown.drop (k + (j + i + 7))
    = spliced
  have hagree : markdown.take (j + i + 8) = spliced.take (j + i + 8) := by
    rw [← hsp, List.append_assoc, List.take_left' htl]
  -- the heading and the opening fence are found where they were
  have h1' : FirstAt spliced (bytesOf "## Default") i :=
    firstAt_congr hagree (by omega) (by rw [hHlen]; omega) h1
  have hagree2 : (markdown.drop i).take (j + 8) = (spliced.drop i).take (j + 8) := by
    rw [List.take_drop, List.take_drop]
    have : i + (j + 8) = j + i + 8 := by omega
    rw [this, hagree]
  have h2' : FirstAt (spliced.drop i) (bytesOf "```yaml") j :=
    firstAt_congr hagree2 (by rw [List.length_drop]; omega) (by rw [hYlen]; omega) h2
  -- the closing fence is found right behind the block
  have hdrop : spliced.drop (j + i + 7)
      = ([10] ++ config) ++ markdown.drop (k + (j + i + 7)) := by
    rw [← hsp, htake]
    have hl7 : (markdown.take (j + i + 7)).length = j + i + 7 :=
      List.length_take_of_le (by omega)
    simp only [List.append_assoc]
    rw [List.drop_left' hl7]
  have h3' : FirstAt (spliced.drop (j + i + 7)) (bytesOf "```") ([10] ++ config).length := by
    rw [hdrop]
    refine firstAt_behind [96, 96] hF ?_ hS
    simp only [List.singleton_append, List.mem_cons, not_or]
    exact ⟨by decide, hclean⟩
  rw [splice_of_firstAt config spliced i j _ h1' h2' h3', ← hagree]
  have hlast : spliced.drop (([10] ++ config).length + (j + i + 7))
      = markdown.drop (k + (j + i + 7)) := by
    rw [← hsp]
    refine List.drop_left' ?_
    simp only [List.length_append, htl, List.length_singleton]
    omega
  rw [hlast, hsp]

theorem mem_joinLines {b : Nat} :
    ∀ lines : List (List Nat), b ∈ joinLines lines → b = 10 ∨ ∃ line ∈ lines, b ∈ line
  | [], h => by cases h
  | [line], h => Or.inr ⟨line, List.mem_cons_self _ _, by simpa [joinLines] using h⟩
  | line :: next :: rest, h => by
    rw [joinLines] at h
    rcases List.mem_append.mp h with h | h
    · exact Or.inr ⟨line, List.mem_cons_self _ _, h⟩
    · rcases List.mem_cons.mp h with h | h
      · exact Or.inl h
      · rcases mem_joinLines (next :: rest) h with h | ⟨l, hl, hb⟩
        · exact Or.inl h
        · exact Or.inr ⟨l, List.mem_cons_of_mem _ hl, hb⟩

theorem mem_of_mem_joinLines_line {b : Nat} :
    ∀ (lines : List (List Nat)) (line : List Nat), line ∈ lines → b ∈ line →
      b ∈ joinLines lines
  | [], _, h, _ => by cases h
  | [only], line, h, hb => by
    have : line = only := by simpa using h
    subst this
    simpa [joinLines] using hb
  | first :: next :: rest, line, h, hb => by
    rw [joinLines]
    rcases List.mem_cons.mp h with h | h
    · subst h
      exact List.mem_append_left _ hb
    · exact List.mem_append_right _
        (List.mem_cons_of_mem _ (mem_of_mem_joinLines_line (next :: rest) line h hb))

/-- Every byte of the preprocessed block is a byte of the block or a line
feed. -/
theorem stripSeparators_bytes (buffer config : List Nat)
    (h : stripSeparators buffer = some config) :
    ∀ b ∈ config, b = 10 ∨ b ∈ buffer := by
  rw [stripSeparators_eq] at h
  split at h
  · cases h
  · cases h
    intro b hb
    rcases mem_joinLines _ hb with h10 | ⟨line, hl, hbl⟩
    · exact Or.inl h10
    · refine Or.inr ?_
      have := mem_of_mem_joinLines_line (splitLines buffer) line (List.mem_filter.mp hl).1 hbl
      rwa [joinLines_splitLines] at this

/-- C18: in a file with the three markers whose opening fence is followed by
a line feed, and for a block without backtick, running `writeToConfigDocs` on
the file it left behind leaves that file as it is: the content after the
second run equals the content after the first.  Unless preprocessing panics,
both runs write, and they write the same content. -/
theorem writeToConfigDocs_twice (buffer markdown : List Nat) (i j k : Nat)
    (h1 : FirstAt markdown (bytesOf "## Default") i)
    (h2 : FirstAt (markdown.drop i) (bytesOf "```yaml") j)
    (h3 : FirstAt (markdown.drop (j + i + 7)) (bytesOf "```") k)
    (hnl : markdown[j + i + 7]? = some 10)
    (hclean : 96 ∉ buffer) :
    fileAfter (fileAfter (some markdown) (writeToConfigDocs buffer (some markdown)))
        (writeToConfigDocs buffer
          (fileAfter (some markdown) (writeToConfigDocs buffer (some markdown))))
      = fileAfter (some markdown) (writeToConfigDocs buffer (some markdown)) ∧
      ∀ config, stripSeparators buffer = some config →
        ∃ spliced, writeToConfigDocs buffer (some markdown) = .write spliced ∧
          writeToConfigDocs buffer (some spliced) = .write spliced := by
  have hboth : ∀ config, stripSeparators buffer = some config →
      ∃ spliced, writeToConfigDocs buffer (some markdown) = .write spliced ∧
        writeToConfigDocs buffer (some spliced) = .write spliced := by
    intro config hc
    have hcc : 96 ∉ config := by
      intro hmem
      rcases stripSeparators_bytes buffer config hc 96 hmem with h | h
      · cases h
      · exact hclean h
    obtain ⟨spliced, hs1, hs2⟩ := splice_twice config markdown i j k h1 h2 h3 hnl hcc
    refine ⟨spliced, ?_, ?_⟩
    · unfold writeToConfigDocs
      simp only [hc, hs1]
    · unfold writeToConfigDocs
      simp only [hc, hs2]
  refine ⟨?_, hboth⟩
  cases hc : stripSeparators buffer with
  | none =>
    have hp : ∀ file, writeToConfigDocs buffer file = .panic := by
      intro file
      unfold writeToConfigDocs
      rw [hc]
    simp only [hp, fileAfter]
  | some config =>
    obtain ⟨spliced, hs1, hs2⟩ := hboth config hc
    simp only [hs1, fileAfter, hs2]

/-- Witness for C18: the default section with an old block, spliced twice with
the block `new: 2`. -/
theorem writeToConfigDocs_twice_witness :
    ∃ spliced,
      writeToConfigDocs (bytesOf "new: 2\n")
          (some (bytesOf "## Default\n```yaml\nold: 1\n```\n")) = .write spliced ∧
        writeToConfigDocs (bytesOf "new: 2\n") (some spliced) = .write spliced :=
  (writeToConfigDocs_twice (bytesOf "new: 2\n")
    (bytesOf "## Default\n```yaml\nold: 1\n```\n") 0 11 8
    (firstAt_of_index _ _ 0 (by decide)) (firstAt_of_index _ _ 11 (by decide))
    (firstAt_of_index _ _ 8 (by decide)) (by decide) (by decide)).2
      (bytesOf "new: 2\n") (by decide)

end JsonSchema
